import Mathlib

/-!
Verification development for the projection / reference-join engine in
`server/database/projection.py`.

The development contains three shallow embeddings, each translated from the
source:

* a value-level model of `project_dict` / `copy_path` (nested documents as an
  inductive `Val`, Python `TypeError` / `ValueError` as an `Except` error);
* a model of `ProjectionHelper._parse_projection` (the planner) over `Finset`s
  of field-path strings, with `_ProxyManager` and the id-collection pass of
  `ProjectionHelper.project` as explicit state passing (proxy identity is an
  arena index, following the id → slot reading of proxy sharing);
* a heap (store) model of `project_dict` in which documents are cells addressed
  by natural-number references, used for claims about object identity and
  mutation of the source document.

Python string operations (`startswith`, `endswith`, slicing, `split`) are
re-implemented over `String.data` so that they compute by `decide` and reduce
to `List Char` reasoning.
-/

namespace Projection

/-! ## Python string primitives -/

/-- Python `s.startswith(pre)`. -/
def pyStartsWith (s pre : String) : Bool :=
  pre.data.isPrefixOf s.data

/-- Python `s.endswith(suf)`. -/
def pyEndsWith (s suf : String) : Bool :=
  suf.data.isSuffixOf s.data

/-- Python `s[n:]`. -/
def pyDrop (s : String) (n : Nat) : String :=
  String.mk (s.data.drop n)

/-- Python `s[:-n]` for `0 < n ≤ len(s)` (used as `field[:-2]`). -/
def pyDropRight (s : String) (n : Nat) : String :=
  String.mk (s.data.take (s.data.length - n))

/-- Python `s.split(".")[0]`: the prefix of `s` before the first dot. -/
def pyFirstSeg (s : String) : String :=
  String.mk (s.data.takeWhile (· ≠ '.'))

/-- Split a character list on `'.'`, keeping empty pieces, as Python
`s.split(".")` does. -/
def splitChars : List Char → List (List Char)
  | [] => [[]]
  | c :: cs =>
    match splitChars cs with
    | [] => [[]]
    | r :: rs => if c = '.' then [] :: r :: rs else (c :: r) :: rs

/-- Python `s.split(".")`. -/
def pySplit (s : String) : List String :=
  (splitChars s.data).map String.mk

/-- Lexicographic `≤` on code points, the comparison Python `sorted` uses on
strings.  (Defined over `Char.toNat` so that it computes inside the kernel.) -/
def strLeChars : List Char → List Char → Bool
  | [], _ => true
  | _ :: _, [] => false
  | a :: as, b :: bs =>
    if a.toNat < b.toNat then true
    else if b.toNat < a.toNat then false
    else strLeChars as bs

/-- Python string `<=`. -/
def pyStrLe (a b : String) : Bool := strLeChars a.data b.data

/-- Structural insertion sort, modelling Python `sorted` on strings. -/
def insertSorted (x : String) : List String → List String
  | [] => [x]
  | y :: ys => if pyStrLe x y then x :: y :: ys else y :: insertSorted x ys

/-- Python `sorted(projection)`. -/
def sortStrings : List String → List String
  | [] => []
  | x :: xs => insertSorted x (sortStrings xs)

/-! ## Value-level model of `project_dict`

Documents are nested maps / sequences of primitives.  A `dict` is an
association list with (in all source-reachable states) unique keys; `prim`
stands for any non-dict non-sequence Python value.  Python's `list` and
`tuple` are both modelled by `Val.list`. -/

inductive Val where
  | prim (n : Nat)
  | str (s : String)
  | dict (entries : List (String × Val))
  | list (elems : List Val)

mutual

/-- Boolean equality on `Val` (needed because `deriving DecidableEq` does not
handle the nested lists). -/
def Val.beq : Val → Val → Bool
  | .prim n, .prim m => n == m
  | .str a, .str b => a == b
  | .dict a, .dict b => Val.beqEntries a b
  | .list a, .list b => Val.beqList a b
  | _, _ => false

def Val.beqEntries : List (String × Val) → List (String × Val) → Bool
  | [], [] => true
  | (k, v) :: r, (k', v') :: r' => k == k' && Val.beq v v' && Val.beqEntries r r'
  | _, _ => false

def Val.beqList : List Val → List Val → Bool
  | [], [] => true
  | v :: r, v' :: r' => Val.beq v v' && Val.beqList r r'
  | _, _ => false

end

mutual

theorem Val.eq_of_beq : ∀ a b : Val, Val.beq a b = true → a = b
  | .prim _, .prim _, h => by
    simp only [Val.beq, Nat.beq_eq_true_eq] at h; simp [h]
  | .str _, .str _, h => by
    simp only [Val.beq, beq_iff_eq] at h; simp [h]
  | .dict a, .dict b, h => by
    simp only [Val.beq] at h
    simp [Val.eqEntries_of_beq a b h]
  | .list a, .list b, h => by
    simp only [Val.beq] at h
    simp [Val.eqList_of_beq a b h]

theorem Val.eqEntries_of_beq :
    ∀ a b : List (String × Val), Val.beqEntries a b = true → a = b
  | [], [], _ => rfl
  | (k, v) :: r, (k', v') :: r', h => by
    simp only [Val.beqEntries, Bool.and_eq_true, beq_iff_eq] at h
    obtain ⟨⟨hk, hv⟩, hr⟩ := h
    rw [hk, Val.eq_of_beq v v' hv, Val.eqEntries_of_beq r r' hr]

theorem Val.eqList_of_beq : ∀ a b : List Val, Val.beqList a b = true → a = b
  | [], [], _ => rfl
  | v :: r, v' :: r', h => by
    simp only [Val.beqList, Bool.and_eq_true] at h
    rw [Val.eq_of_beq v v' h.1, Val.eqList_of_beq r r' h.2]

end

mutual

theorem Val.beq_self : ∀ a : Val, Val.beq a a = true
  | .prim _ => by simp [Val.beq]
  | .str _ => by simp [Val.beq]
  | .dict a => by simp [Val.beq, Val.beqEntries_self a]
  | .list a => by simp [Val.beq, Val.beqList_self a]

theorem Val.beqEntries_self : ∀ a : List (String × Val), Val.beqEntries a a = true
  | [] => rfl
  | (_, v) :: r => by
    simp [Val.beqEntries, Val.beq_self v, Val.beqEntries_self r]

theorem Val.beqList_self : ∀ a : List Val, Val.beqList a a = true
  | [] => rfl
  | v :: r => by simp [Val.beqList, Val.beq_self v, Val.beqList_self r]

end

instance : DecidableEq Val := fun a b =>
  if h : Val.beq a b then isTrue (Val.eq_of_beq a b h)
  else isFalse (fun he => h (he ▸ Val.beq_self a))

/-- Errors that can escape `project_dict`.  `KeyError` is caught by
`copy_path` itself and therefore does not appear here.  `typeError` covers
both explicit `TypeError` sites in `copy_path` and Python's native
`TypeError` from subscripting a non-dict with a string key; `valueError` is
the list-length mismatch. -/
inductive PErr where
  | typeError
  | valueError
  deriving DecidableEq

/-- Replace the binding of `k` in an association list (or append it), the
update semantics of Python `d[k] = v`. -/
def setEntry (l : List (String × Val)) (k : String) (v : Val) :
    List (String × Val) :=
  match l with
  | [] => [(k, v)]
  | (k', v') :: rest =>
    if k' = k then (k, v) :: rest else (k', v') :: setEntry rest k v

/-- The list comprehension
`[copy_path(path_parts[depth+1:], s, d) for s, d in zip(src_part, dst[...])]`,
abstracted over the recursive call. -/
def mapPairsE (f : Val → Val → Except PErr Val) :
    List (Val × Val) → Except PErr (List Val)
  | [] => .ok []
  | (s, d) :: pairs =>
    match f s d with
    | .error e => .error e
    | .ok v =>
      match mapPairsE f pairs with
      | .error e => .error e
      | .ok vs => .ok (v :: vs)

/-- Fuel-indexed body of `copy_path`; the fuel only makes the recursion
structural (so that the definition computes inside the kernel) and is always
run with `fuel = parts.length`, which every recursive call preserves, so the
out-of-fuel case is unreachable.  See `copyPath` for the intended entry
point. -/
def copyPathAux : Nat → List String → Val → Val → Except PErr Val
  | _, [], _, dst => .ok dst
  | _, [last], src, dst =>
    match src with
    | .dict sm =>
      match sm.lookup last with
      | none => .ok dst            -- KeyError: projection field not in source
      | some v =>
        match dst with
        | .dict dm => .ok (.dict (setEntry dm last v))
        | _ => .error .typeError   -- string-keyed store into a non-dict
    | _ => .error .typeError       -- Python: `src[last]` on a non-dict
  | fuel + 1, part :: rest@(_ :: _), src, dst =>
    match src with
    | .dict sm =>
      match sm.lookup part with
      | none => .ok dst            -- KeyError: abandon this path
      | some srcPart =>
        match srcPart with
        | .dict _ =>
          -- src_part is a dict: descend via `dst.setdefault(path_part, {})`
          match dst with
          | .dict dm =>
            match copyPathAux fuel rest srcPart
                ((dm.lookup part).getD (.dict [])) with
            | .error e => .error e
            | .ok inner => .ok (.dict (setEntry dm part inner))
          | _ => .error .typeError -- `setdefault` on a non-dict destination
        | .list selems =>
          -- src_part is a sequence: element-wise recursion, then return
          match dst with
          | .dict dm =>
            match dm.lookup part with
            | none =>
              match mapPairsE (copyPathAux fuel rest)
                  (selems.zip (List.replicate selems.length (Val.dict []))) with
              | .error e => .error e
              | .ok elems => .ok (.dict (setEntry dm part (.list elems)))
            | some (.list delems) =>
              if delems.length = selems.length then
                match mapPairsE (copyPathAux fuel rest) (selems.zip delems) with
                | .error e => .error e
                | .ok elems => .ok (.dict (setEntry dm part (.list elems)))
              else .error .valueError
            | some _ => .error .typeError
          | _ => .error .typeError
        | _ => .error .typeError   -- "Unsupported projection type"
    | _ => .error .typeError       -- Python: `src[part]` on a non-dict
  | 0, _ :: _ :: _, _, dst => .ok dst  -- out of fuel: unreachable

/-- Value-level translation of `copy_path` (projection.py lines 25-64).

One recursion step of `copyPathAux` is one iteration of the Python loop over
`path_parts[:-1]`; the `[last]` case is the final `dst[last_part] =
src[last_part]`.  A missing source key (Python `KeyError`, caught by the
`except` clause around the loop) returns the destination built so far;
`TypeError` / `ValueError` propagate via `Except.error`. -/
def copyPath (parts : List String) (src dst : Val) : Except PErr Val :=
  copyPathAux parts.length parts src dst

deriving instance DecidableEq for Except

/-- Value-level translation of `project_dict` (projection.py lines 14-70):
fold `copy_path` over the lexicographically sorted projection paths, starting
from a fresh empty dictionary. -/
def projectDict (data : List (String × Val)) (projection : List String) :
    Except PErr Val :=
  (sortStrings projection).foldlM
    (fun acc p => copyPath (pySplit p) (.dict data) acc) (.dict [])

example : projectDict [("a", .prim 1), ("b", .prim 2)] ["a"] =
    .ok (.dict [("a", .prim 1)]) := by decide

example : projectDict [("a", .dict [])] ["a.b"] =
    .ok (.dict [("a", .dict [])]) := by decide

example : projectDict [("a", .list [.dict [("b", .prim 1), ("c", .prim 2)],
      .dict [("b", .prim 3)]])] ["a.b"] =
    .ok (.dict [("a", .list [.dict [("b", .prim 1)],
      .dict [("b", .prim 3)]])]) := by decide

/-- Lookup in a `Val` that is a dict. -/
def dictLookup (v : Val) (k : String) : Option Val :=
  match v with
  | .dict m => m.lookup k
  | _ => none

/-- Does `v` contain a complete binding chain for the given path (descending
through dicts)? -/
def hasPath : Val → List String → Bool
  | _, [] => true
  | .dict m, p :: rest =>
    match m.lookup p with
    | some v => hasPath v rest
    | none => false
  | _, _ :: _ => false

/-- The traversal of `copy_path` runs into a simple key-not-found: descending
from `data` through dict values along the path, some segment is absent from
the dict reached at that point (with at least one further segment pending or
it being the final segment). -/
inductive DictMiss : List (String × Val) → List String → Prop
  | head {data : List (String × Val)} {part : String} {rest : List String}
      (h : data.lookup part = none) : DictMiss data (part :: rest)
  | step {data : List (String × Val)} {part : String} {rest : List String}
      {inner : List (String × Val)}
      (h : data.lookup part = some (.dict inner)) (hrest : rest ≠ [])
      (hm : DictMiss inner rest) : DictMiss data (part :: rest)

/-! ### Evaluation lemmas for `copyPath` -/

theorem copyPath_two_cons (part r1 : String) (rest : List String)
    (src dst : Val) :
    copyPath (part :: r1 :: rest) src dst =
      match src with
      | .dict sm =>
        match sm.lookup part with
        | none => .ok dst
        | some srcPart =>
          match srcPart with
          | .dict _ =>
            match dst with
            | .dict dm =>
              match copyPath (r1 :: rest) srcPart
                  ((dm.lookup part).getD (.dict [])) with
              | .error e => .error e
              | .ok inner => .ok (.dict (setEntry dm part inner))
            | _ => .error .typeError
          | .list selems =>
            match dst with
            | .dict dm =>
              match dm.lookup part with
              | none =>
                match mapPairsE (copyPath (r1 :: rest))
                    (selems.zip (List.replicate selems.length (Val.dict []))) with
                | .error e => .error e
                | .ok elems => .ok (.dict (setEntry dm part (.list elems)))
              | some (.list delems) =>
                if delems.length = selems.length then
                  match mapPairsE (copyPath (r1 :: rest)) (selems.zip delems) with
                  | .error e => .error e
                  | .ok elems => .ok (.dict (setEntry dm part (.list elems)))
                else .error .valueError
              | some _ => .error .typeError
            | _ => .error .typeError
          | _ => .error .typeError
      | _ => .error .typeError := rfl

theorem copyPath_single (last : String) (src dst : Val) :
    copyPath [last] src dst =
      match src with
      | .dict sm =>
        match sm.lookup last with
        | none => .ok dst
        | some v =>
          match dst with
          | .dict dm => .ok (.dict (setEntry dm last v))
          | _ => .error .typeError
      | _ => .error .typeError := rfl

/-- If the first path segment is absent from the (dict) source, `copy_path`
returns the destination unchanged, whatever the remaining path is. -/
theorem copyPath_head_miss (data : List (String × Val)) (part : String)
    (rest : List String) (dst : Val) (h : data.lookup part = none) :
    copyPath (part :: rest) (.dict data) dst = .ok dst := by
  cases rest with
  | nil => rw [copyPath_single]; simp [h]
  | cons r1 rest' => rw [copyPath_two_cons]; simp [h]

theorem mapPairsE_ok_length {f : Val → Val → Except PErr Val}
    {pairs : List (Val × Val)} {vs : List Val}
    (h : mapPairsE f pairs = .ok vs) : vs.length = pairs.length := by
  induction pairs generalizing vs with
  | nil => simp only [mapPairsE] at h; cases h; rfl
  | cons pr rest ih =>
    obtain ⟨s, d⟩ := pr
    simp only [mapPairsE] at h
    cases hf : f s d with
    | error e => rw [hf] at h; cases h
    | ok v =>
      rw [hf] at h
      cases hr : mapPairsE f rest with
      | error e => rw [hr] at h; cases h
      | ok vs' =>
        rw [hr] at h
        cases h
        simp [ih hr]

theorem mapPairsE_ok_get {f : Val → Val → Except PErr Val}
    {pairs : List (Val × Val)} {vs : List Val}
    (h : mapPairsE f pairs = .ok vs) :
    ∀ i (hi : i < pairs.length) (hi' : i < vs.length),
      f (pairs.get ⟨i, hi⟩).1 (pairs.get ⟨i, hi⟩).2 = .ok (vs.get ⟨i, hi'⟩) := by
  induction pairs generalizing vs with
  | nil => intro i hi _; exact absurd hi (by simp)
  | cons pr rest ih =>
    obtain ⟨s, d⟩ := pr
    simp only [mapPairsE] at h
    cases hf : f s d with
    | error e => rw [hf] at h; cases h
    | ok v =>
      rw [hf] at h
      cases hr : mapPairsE f rest with
      | error e => rw [hr] at h; cases h
      | ok vs' =>
        rw [hr] at h
        cases h
        intro i hi hi'
        cases i with
        | zero => simpa using hf
        | succ j =>
          have hj : j < rest.length := by simpa using hi
          have hj' : j < vs'.length := by simpa using hi'
          simpa using ih hr j hj hj'

/-- Sorting a single-element projection is the identity. -/
theorem sortStrings_single (p : String) : sortStrings [p] = [p] := rfl

/-- `project_dict` on a single path is `copy_path` from an empty dict. -/
theorem projectDict_single (data : List (String × Val)) (p : String) :
    projectDict data [p] = copyPath (pySplit p) (.dict data) (.dict []) := by
  unfold projectDict
  rw [sortStrings_single]
  cases h : copyPath (pySplit p) (.dict data) (.dict []) <;>
    simp [List.foldlM, h]

/-!
### Claim C5: shape preservation for sequences
-/

/-- C5: for every source document containing a field `f` whose value is a
sequence of `N` elements, a successful `project_dict` on a path descending
under `f` yields a destination sequence of exactly `N` elements for `f`, each
element being the projection (`copy_path` / `project_dict`) of the
corresponding source element under the remaining path suffix. -/
theorem projectDict_list_shape
    (data : List (String × Val)) (path spath f s1 : String)
    (srest : List String) (selems : List Val) (r : Val)
    (hsplit : pySplit path = f :: s1 :: srest)
    (hsuffix : pySplit spath = s1 :: srest)
    (hf : data.lookup f = some (.list selems))
    (hok : projectDict data [path] = .ok r) :
    ∃ elems : List Val,
      r = .dict [(f, .list elems)] ∧
      elems.length = selems.length ∧
      (∀ i (hi : i < selems.length) (hi' : i < elems.length),
        copyPath (s1 :: srest) (selems.get ⟨i, hi⟩) (.dict []) =
          .ok (elems.get ⟨i, hi'⟩)) ∧
      (∀ i (hi : i < selems.length) (hi' : i < elems.length)
        (em : List (String × Val)), selems.get ⟨i, hi⟩ = .dict em →
        projectDict em [spath] = .ok (elems.get ⟨i, hi'⟩)) := by
  rw [projectDict_single, hsplit, copyPath_two_cons] at hok
  simp only [hf] at hok
  cases hm : mapPairsE (copyPath (s1 :: srest))
      (selems.zip (List.replicate selems.length (Val.dict []))) with
  | error e => rw [hm] at hok; simp at hok
  | ok elems =>
    rw [hm] at hok
    simp only [List.lookup] at hok
    cases hok
    have hlen : elems.length = selems.length := by
      have := mapPairsE_ok_length hm
      simpa using this
    have hget : ∀ i (hi : i < selems.length) (hi' : i < elems.length),
        copyPath (s1 :: srest) (selems.get ⟨i, hi⟩) (.dict []) =
          .ok (elems.get ⟨i, hi'⟩) := by
      intro i hi hi'
      have hzip : i < (selems.zip
          (List.replicate selems.length (Val.dict []))).length := by
        simpa using hi
      have := mapPairsE_ok_get hm i hzip hi'
      simpa using this
    refine ⟨elems, rfl, hlen, hget, ?_⟩
    intro i hi hi' em hem
    rw [projectDict_single, hsuffix]
    have := hget i hi hi'
    rwa [hem] at this

/-- Witness for C5 at a concrete two-element list. -/
theorem projectDict_list_shape_witness :
    ∃ elems : List Val,
      (Val.dict [("a", Val.list [Val.dict [("b", Val.prim 1)],
          Val.dict [("b", Val.prim 3)]])]) = .dict [("a", .list elems)] ∧
      elems.length = 2 ∧
      (∀ i (hi : i < ([Val.dict [("b", Val.prim 1), ("c", Val.prim 2)],
            Val.dict [("b", Val.prim 3)]] : List Val).length)
          (hi' : i < elems.length),
        copyPath ["b"] (([Val.dict [("b", Val.prim 1), ("c", Val.prim 2)],
            Val.dict [("b", Val.prim 3)]] : List Val).get ⟨i, hi⟩) (.dict []) =
          .ok (elems.get ⟨i, hi'⟩)) ∧
      (∀ i (hi : i < ([Val.dict [("b", Val.prim 1), ("c", Val.prim 2)],
            Val.dict [("b", Val.prim 3)]] : List Val).length)
          (hi' : i < elems.length) (em : List (String × Val)),
        ([Val.dict [("b", Val.prim 1), ("c", Val.prim 2)],
            Val.dict [("b", Val.prim 3)]] : List Val).get ⟨i, hi⟩ = .dict em →
        projectDict em ["b"] = .ok (elems.get ⟨i, hi'⟩)) :=
  projectDict_list_shape
    [("a", .list [.dict [("b", .prim 1), ("c", .prim 2)],
      .dict [("b", .prim 3)]])]
    "a.b" "b" "a" "b" []
    [.dict [("b", .prim 1), ("c", .prim 2)], .dict [("b", .prim 3)]]
    (.dict [("a", .list [.dict [("b", .prim 1)], .dict [("b", .prim 3)]])])
    (by decide) (by decide) (by decide) (by decide)

/-!
### Claim C6: destination shape mismatches are hard errors
-/

/-- C6: when `copy_path` must copy a source sequence but the destination
already binds that key to a non-sequence, it fails with the `TypeError`;
when it binds a sequence of a different length, it fails with the
`ValueError`; neither is silently truncated or padded, and an error raised by
`copy_path` on a projection path propagates out of `project_dict`. -/
theorem copyPath_shape_mismatch_errors :
    (∀ (part : String) (rest : List String) (sm dm : List (String × Val))
      (selems : List Val) (v : Val), rest ≠ [] →
      sm.lookup part = some (.list selems) →
      dm.lookup part = some v → (∀ l, v ≠ .list l) →
      copyPath (part :: rest) (.dict sm) (.dict dm) = .error .typeError) ∧
    (∀ (part : String) (rest : List String) (sm dm : List (String × Val))
      (selems delems : List Val), rest ≠ [] →
      sm.lookup part = some (.list selems) →
      dm.lookup part = some (.list delems) →
      delems.length ≠ selems.length →
      copyPath (part :: rest) (.dict sm) (.dict dm) = .error .valueError) ∧
    (∀ (data : List (String × Val)) (ps rest : List String) (p : String)
      (e : PErr), sortStrings ps = p :: rest →
      copyPath (pySplit p) (.dict data) (.dict []) = .error e →
      projectDict data ps = .error e) := by
  refine ⟨?_, ?_, ?_⟩
  · intro part rest sm dm selems v hrest hs hd hv
    cases rest with
    | nil => exact absurd rfl hrest
    | cons r1 rest' =>
      rw [copyPath_two_cons]
      -- the side condition of the catch-all match equation is discharged
      -- from `hv`
      simp only [hs, hd]
  · intro part rest sm dm selems delems hrest hs hd hlen
    cases rest with
    | nil => exact absurd rfl hrest
    | cons r1 rest' =>
      rw [copyPath_two_cons]
      simp [hs, hd, hlen]
  · intro data ps rest p e hsort hcp
    unfold projectDict
    rw [hsort]
    simp only [List.foldlM, hcp]
    rfl

/-- Witness for C6: a type mismatch, a length mismatch, and propagation out
of `project_dict`, at concrete inputs. -/
theorem copyPath_shape_mismatch_errors_witness :
    copyPath ["a", "b"] (.dict [("a", .list [.dict []])])
      (.dict [("a", .prim 7)]) = .error .typeError ∧
    copyPath ["a", "b"] (.dict [("a", .list [.dict []])])
      (.dict [("a", .list [])]) = .error .valueError ∧
    projectDict [("a", .list [.dict [("b", .list [.prim 0])]])] ["a.b.c"] =
      .error .typeError :=
  ⟨copyPath_shape_mismatch_errors.1 "a" ["b"] _ _ [.dict []] (.prim 7)
      (by decide) (by decide) (by decide) (fun l h => Val.noConfusion h),
   copyPath_shape_mismatch_errors.2.1 "a" ["b"] _ _ [.dict []] []
      (by decide) (by decide) (by decide) (by decide),
   copyPath_shape_mismatch_errors.2.2 _ ["a.b.c"] [] "a.b.c" .typeError
      (by decide) (by decide)⟩

/-!
### Claim C7 (corrected): missing fields are tolerated, but partially built
intermediate containers remain in the destination
-/

/-- Counterexample to C7 as stated: projecting `"a.b"` from `{"a": {}}`
raises nothing, but the destination is `{"a": {}}`, which does contain a key
for the abandoned path (the empty intermediate dict created by
`dst.setdefault` before the `KeyError`), not the claimed empty result. -/
theorem projectDict_missing_leaves_scaffold :
    projectDict [("a", Val.dict [])] ["a.b"] =
      .ok (.dict [("a", .dict [])]) ∧
    dictLookup (.dict [("a", Val.dict [])]) "a" = some (.dict []) ∧
    (Val.dict [("a", Val.dict [])]) ≠ .dict [] := by
  refine ⟨by decide, by decide, by decide⟩

theorem copyPath_dictMiss {data : List (String × Val)} {parts : List String}
    (h : DictMiss data parts) :
    ∃ r : Val, copyPath parts (.dict data) (.dict []) = .ok r ∧
      hasPath r parts = false := by
  induction h with
  | head hmiss =>
    refine ⟨.dict [], copyPath_head_miss _ _ _ _ hmiss, ?_⟩
    simp [hasPath, List.lookup]
  | @step data part rest inner hfind hrest hm ih =>
    obtain ⟨r', hr', hp'⟩ := ih
    cases rest with
    | nil => exact absurd rfl hrest
    | cons r1 rest' =>
      refine ⟨.dict [(part, r')], ?_, ?_⟩
      · rw [copyPath_two_cons]
        simp only [hfind, List.lookup, Option.getD_none, hr']
        rfl
      · simp only [hasPath, List.lookup, beq_self_eq_true]
        exact hp'

/-- C7 (amended): a path whose traversal hits a simple key-not-found in the
source produces no error, and the destination holds no complete binding for
that path; if the very first segment is missing the destination is the empty
dict, but empty intermediate containers created before the missing segment
remain. -/
theorem projectDict_missing_field_tolerance
    (data : List (String × Val)) (p : String)
    (hmiss : DictMiss data (pySplit p)) :
    ∃ r : Val, projectDict data [p] = .ok r ∧
      hasPath r (pySplit p) = false ∧
      (∀ part rest, pySplit p = part :: rest → data.lookup part = none →
        r = .dict []) := by
  obtain ⟨r, hr, hp⟩ := copyPath_dictMiss hmiss
  refine ⟨r, by rw [projectDict_single]; exact hr, hp, ?_⟩
  intro part rest hsplit hnone
  rw [hsplit] at hr
  rw [copyPath_head_miss _ _ _ _ hnone] at hr
  cases hr
  rfl

/-- Witness for C7's amended theorem at `{"a": {}}` and path `"a.b"`. -/
theorem projectDict_missing_field_tolerance_witness :
    ∃ r : Val, projectDict [("a", Val.dict [])] ["a.b"] = .ok r ∧
      hasPath r (pySplit "a.b") = false ∧
      (∀ part rest, pySplit "a.b" = part :: rest →
        ([("a", Val.dict [])] : List (String × Val)).lookup part = none →
        r = .dict []) := by
  have hsplit : pySplit "a.b" = ["a", "b"] := by decide
  exact projectDict_missing_field_tolerance [("a", Val.dict [])] "a.b"
    (by rw [hsplit]
        exact @DictMiss.step [("a", Val.dict [])] "a" ["b"] [] (by decide)
          (by decide) (DictMiss.head (by decide)))

/-!
## The projection planner (`ProjectionHelper._parse_projection`)

Python `set`s of field paths are modelled as duplicate-free `List String`s
with explicit membership-based operations; the iteration order of a Python
set is unspecified, so every theorem below is stated in terms of membership,
never of list order.  A document class (the schema provider) carries its name,
its declared field names (`get_fields()`) and its reference fields
(`get_reference_fields().items()`, an association list in iteration order).
-/

/-- The target document class of a reference field (only its name and
declared fields are consulted by the planner). -/
structure RefCls where
  name : String
  fields : List String
  deriving DecidableEq

/-- A document class as seen by the planner. -/
structure DocCls where
  name : String
  fields : List String
  refFields : List (String × RefCls)
  deriving DecidableEq

/-- The `errors.bad_request.InvalidFields` error, with its offending-fields
and object-name payload. -/
inductive PlanErr where
  | invalidFields (fields : List String) (object : String)
  deriving DecidableEq

/-- Add an element to a set-as-list (Python `set.add`). -/
def addNew (l : List String) (x : String) : List String :=
  if x ∈ l then l else l ++ [x]

/-- Python `set.union`. -/
def listUnion (a b : List String) : List String :=
  b.foldl addNew a

/-- Python `set.difference`. -/
def listDiff (a b : List String) : List String :=
  a.filter (fun x => !decide (x ∈ b))

/-- The classification loop of `_collect_projection_fields` (lines 131-145):
find the first reference field that `field` properly descends (with a `.`
separator) and return it with the remaining suffix; `none` means the `else`
branch of the `for` loop (a plain local field). -/
def classifyField : List (String × RefCls) → String → Option (String × RefCls × String)
  | [], _ => none
  | (rf, rc) :: rest, field =>
    if pyStartsWith field rf && !decide (field = rf) &&
        pyStartsWith (pyDrop field rf.length) "." then
      some (rf, rc, pyDrop field (rf.length + 1))
    else classifyField rest field

/-- Strip a trailing `.*` (lines 150-151). -/
def stripField (f : String) : String :=
  if pyEndsWith f ".*" then pyDropRight f 2 else f

/-- `_collect_projection_fields` (lines 117-157): split the requested paths
into the local-field set and the reference-projection info list, raising
`InvalidFields` for a path that strips to the empty string. -/
def collectStage (cls : DocCls) : List String →
    Except PlanErr (List String × List (String × RefCls × String))
  | [] => .ok ([], [])
  | field :: rest =>
    match classifyField cls.refFields field with
    | some info =>
      match collectStage cls rest with
      | .error e => .error e
      | .ok (dp, ri) => .ok (dp, info :: ri)
    | none =>
      let f := stripField field
      if f = "" then .error (.invalidFields [field] cls.name)
      else
        match collectStage cls rest with
        | .error e => .error e
        | .ok (dp, ri) => .ok (if f ∈ dp then dp else f :: dp, ri)

/-- `normalize_cls_projection` (lines 177-181): expand a `*` entry to the
class's declared fields. -/
def normalizeClsProjection (clsFields fields : List String) : List String :=
  if "*" ∈ fields then
    listUnion (fields.filter (fun x => !decide (x = "*"))) clsFields
  else fields

/-- The non-empty suffixes recorded for one reference field
(`compute_ref_cls_projection`'s `subfields`, line 185). -/
def refOnly (info : List (String × RefCls × String)) (rf : String) :
    List String :=
  (info.filterMap (fun x =>
    if decide (x.1 = rf) && !decide (x.2.2 = "") then some x.2.2 else none)
  ).foldl addNew []

/-- The distinct reference-field keys, in Python's `sorted` order
(the `groupby(sorted(...))` on lines 192-197). -/
def refKeysOf (info : List (String × RefCls × String)) : List String :=
  sortStrings ((info.map (fun x => x.1)).foldl addNew [])

/-- The `ref_projection` dict (lines 192-197) as an association list keyed by
reference field, each entry carrying the target class and its normalized
inner projection. -/
def buildRefSpecs (info : List (String × RefCls × String)) :
    List (String × RefCls × List String) :=
  (refKeysOf info).filterMap (fun rf =>
    match info.find? (fun x => decide (x.1 = rf)) with
    | some (_, rc, _) =>
      some (rf, rc, normalizeClsProjection rc.fields (refOnly info rf))
    | none => none)

/-- The prefix-collapse filter (lines 209-217): keep a field only if it is
not a strict dotted descendant of another field of the set. -/
def collapseStage (dp : List String) : List String :=
  dp.filter (fun f =>
    !dp.any (fun g => !decide (g = f) && pyStartsWith f (g ++ ".")))

/-- The invalid-fields filter (lines 220-222): fields whose first dotted
segment is not declared. -/
def invalidFieldsOf (cls : DocCls) (dp : List String) : List String :=
  dp.filter (fun f => !decide (pyFirstSeg f ∈ cls.fields))

/-- The reference-field re-addition loop (lines 228-235): add each joined
reference field not already covered by a (truthy) field it starts with.  The
Python iteration order over the set difference is unspecified; this model
iterates the deduplicated keys in their recorded order, and no theorem below
depends on the order. -/
def refAddStage (dp refKeys : List String) : List String :=
  (listDiff refKeys dp).foldl
    (fun acc field =>
      if acc.any (fun f => !decide (f = "") && pyStartsWith field f) then acc
      else acc ++ [field])
    dp

/-- The planner output stored on the helper: `_doc_projection` and
`_ref_projection`.  Both stay `None` when the requested projection is empty;
since `project` only tests `_ref_projection` for truthiness, `None` is
modelled by the empty spec list, but the `Option` on the local projection is
kept because the early `return` leaves `_doc_projection = None`. -/
structure ParseResult where
  docProjection : Option (List String)
  refProjection : List (String × RefCls × List String)
  deriving DecidableEq

/-- `_parse_projection` (lines 159-238). -/
def parseProjection (cls : DocCls) (projection : List String) :
    Except PlanErr ParseResult :=
  if projection.isEmpty then .ok ⟨none, []⟩
  else
    match collectStage cls projection with
    | .error e => .error e
    | .ok (dp, refInfo) =>
      let refKeys := (refInfo.map (fun x => x.1)).foldl addNew []
      let dp2 := normalizeClsProjection cls.fields
        (listUnion (listDiff dp refKeys) ["id"])
      let dp3 := collapseStage dp2
      let inv := invalidFieldsOf cls dp3
      if inv.isEmpty then
        .ok ⟨some (if refInfo.isEmpty then dp3 else refAddStage dp3 refKeys),
          buildRefSpecs refInfo⟩
      else .error (.invalidFields inv cls.name)

/-- The sub-query projection computed by `do_projection` (lines 320-322)
from a join spec's `only` list: drop falsy entries, and pass `None`
(all fields) if nothing remains, else the entries together with `id`. -/
def subQueryProjection (only : List String) : Option (List String) :=
  let donly := only.filter (fun f => !decide (f = ""))
  if donly.isEmpty then none else some (listUnion ["id"] donly)

/-- A sample schema: `Task` with a reference field `project` targeting
`Project`. -/
def projectRef : RefCls := ⟨"Project", ["id", "name", "email"]⟩

def taskCls : DocCls :=
  ⟨"Task", ["id", "name", "project"], [("project", projectRef)]⟩

/-- A schema with no reference fields, for the planner examples. -/
def plainCls : DocCls := ⟨"Plain", ["id", "a"], []⟩

example : parseProjection taskCls ["name", "project.name"] =
    .ok ⟨some ["name", "id", "project"],
      [("project", projectRef, ["name"])]⟩ := by decide

example : parseProjection plainCls ["a", "a.b"] =
    .ok ⟨some ["a", "id"], []⟩ := by decide

example : parseProjection plainCls ["missing.field"] =
    .error (.invalidFields ["missing.field"] "Plain") := by decide

/-! ### String-level lemmas for the Python primitives -/

theorem strDataInj {a b : String} (h : a.data = b.data) : a = b := by
  cases a; cases b; cases h; rfl

theorem pyStartsWith_iff {s pre : String} :
    pyStartsWith s pre = true ↔ pre.data <+: s.data := by
  simp [pyStartsWith, List.isPrefixOf_iff_prefix]

theorem append_dot_data (g : String) : (g ++ ".").data = g.data ++ ['.'] := by
  simp [String.data_append]

/-- A string without a dot is not a strict dotted descendant of anything. -/
theorem no_descend_of_dot_not_mem {f g : String} (h : '.' ∉ f.data) :
    pyStartsWith f (g ++ ".") = false := by
  rw [Bool.eq_false_iff]
  intro hw
  rw [pyStartsWith_iff, append_dot_data] at hw
  exact h (hw.subset (by simp))

theorem startsWith_weaken {p g : String}
    (h : pyStartsWith p (g ++ ".") = true) : pyStartsWith p g = true := by
  rw [pyStartsWith_iff] at h ⊢
  rw [append_dot_data] at h
  exact List.IsPrefix.trans ⟨['.'], rfl⟩ h

theorem startsWith_append_dot {p rf : String} :
    pyStartsWith p (rf ++ ".") = true ↔ ∃ s : String, p = rf ++ "." ++ s := by
  constructor
  · intro h
    rw [pyStartsWith_iff, append_dot_data] at h
    obtain ⟨t, ht⟩ := h
    refine ⟨String.mk t, strDataInj ?_⟩
    rw [← ht]
    simp [String.data_append]
  · rintro ⟨s, rfl⟩
    rw [pyStartsWith_iff, append_dot_data]
    exact ⟨s.data, by simp [String.data_append]⟩

theorem startsWith_refl_append {rf s : String} :
    pyStartsWith (rf ++ s) rf = true := by
  rw [pyStartsWith_iff]
  exact ⟨s.data, by simp [String.data_append]⟩

theorem append_dot_ne {rf s : String} : rf ++ "." ++ s ≠ rf := by
  intro h
  have := congrArg (fun x : String => x.data.length) h
  simp [String.data_append] at this

theorem pyDrop_append (rf s : String) :
    pyDrop (rf ++ s) rf.length = s := by
  apply strDataInj
  simp only [pyDrop, String.data_append]
  exact List.drop_left rf.data s.data

theorem pyDrop_append_dot (rf s : String) :
    pyDrop (rf ++ "." ++ s) (rf.length + 1) = s := by
  have h : rf ++ "." ++ s = (rf ++ ".") ++ s := by
    apply strDataInj; simp [String.data_append]
  rw [h]
  have hlen : (rf ++ ".").length = rf.length + 1 := by
    show (rf ++ ".").data.length = _
    simp [append_dot_data]
  rw [← hlen]
  exact pyDrop_append _ _

theorem takeWhile_append_general (p : Char → Bool) (l m : List Char) :
    (l ++ m).takeWhile p =
      if l.all p then l ++ m.takeWhile p else l.takeWhile p := by
  induction l with
  | nil => simp
  | cons c cs ih =>
    by_cases hc : p c <;> simp [List.takeWhile_cons, hc, ih, List.all_cons] <;>
      split <;> simp_all [List.takeWhile_cons, hc]

/-- The first dotted segment is unchanged by appending `"." ++ r`. -/
theorem pyFirstSeg_append_dot (q r : String) :
    pyFirstSeg (q ++ "." ++ r) = pyFirstSeg q := by
  apply strDataInj
  simp only [pyFirstSeg, String.data_append]
  rw [List.append_assoc, takeWhile_append_general]
  by_cases hall : q.data.all (fun c => decide ¬c = '.')
  · rw [if_pos hall]
    have h1 : (['.'] ++ r.data : List Char).takeWhile
        (fun c => decide ¬c = '.') = [] := by
      simp [List.takeWhile_cons]
    rw [h1, List.append_nil]
    symm
    apply List.takeWhile_eq_self_iff.mpr
    intro c hc
    exact List.all_eq_true.mp hall c hc
  · rw [if_neg hall]

/-- Two dotted decompositions of the same string with different heads make
one head a strict dotted prefix of the other. -/
theorem two_decomp {a x b y : String} (h : a ++ "." ++ x = b ++ "." ++ y)
    (hne : a ≠ b) :
    pyStartsWith b (a ++ ".") = true ∨ pyStartsWith a (b ++ ".") = true := by
  have hdata : a.data ++ ['.'] ++ x.data = b.data ++ ['.'] ++ y.data := by
    have := congrArg String.data h
    simpa [String.data_append] using this
  have hlen : a.data.length ≠ b.data.length := by
    intro hl
    apply hne
    apply strDataInj
    have h1 : a.data ++ (['.'] ++ x.data) = b.data ++ (['.'] ++ y.data) := by
      simpa [List.append_assoc] using hdata
    exact List.append_inj_left h1 hl
  have key : ∀ (A B X Y : List Char), A ++ ['.'] ++ X = B ++ ['.'] ++ Y →
      A.length < B.length → (A ++ ['.']) <+: B := by
    intro A B X Y hh hl
    have h1 : (A ++ ['.']) <+: (B ++ (['.'] ++ Y)) := by
      rw [← List.append_assoc, ← hh]
      exact ⟨X, by simp⟩
    have h2 : B <+: (B ++ (['.'] ++ Y)) := ⟨['.'] ++ Y, rfl⟩
    exact List.prefix_of_prefix_length_le h1 h2 (by simp; omega)
  rcases Nat.lt_or_ge a.data.length b.data.length with hlt | hge
  · left
    rw [pyStartsWith_iff, append_dot_data]
    exact key _ _ _ _ hdata hlt
  · right
    rw [pyStartsWith_iff, append_dot_data]
    exact key _ _ _ _ hdata.symm (by omega)

/-- `endswith(".*")` decomposes the string. -/
theorem pyEndsWith_dotstar_iff {p : String} :
    pyEndsWith p ".*" = true ↔ ∃ f : String, p = f ++ ".*" := by
  constructor
  · intro h
    simp only [pyEndsWith, List.isSuffixOf_iff_suffix] at h
    obtain ⟨t, ht⟩ := h
    refine ⟨String.mk t, strDataInj ?_⟩
    rw [← ht]
    simp [String.data_append]
  · rintro ⟨f, rfl⟩
    simp only [pyEndsWith, List.isSuffixOf_iff_suffix, String.data_append]
    exact ⟨f.data, rfl⟩

theorem stripField_append_dotstar (f : String) :
    stripField (f ++ ".*") = f := by
  have he : pyEndsWith (f ++ ".*") ".*" = true :=
    pyEndsWith_dotstar_iff.mpr ⟨f, rfl⟩
  simp only [stripField, he, if_pos]
  apply strDataInj
  simp only [pyDropRight, String.data_append]
  have hl : (f.data ++ ['.', '*']).length - 2 = f.data.length := by simp
  rw [hl]
  exact List.take_left f.data _

/-- `stripField` either leaves the path unchanged or removes a final `".*"`. -/
theorem stripField_cases (p : String) :
    stripField p = p ∨ p = stripField p ++ ".*" := by
  by_cases h : pyEndsWith p ".*" = true
  · right
    obtain ⟨f, rfl⟩ := pyEndsWith_dotstar_iff.mp h
    rw [stripField_append_dotstar]
  · left
    simp only [stripField]
    rw [if_neg (by simpa using h)]

/-- Stripping a trailing wildcard does not change the first dotted segment. -/
theorem pyFirstSeg_stripField (p : String) :
    pyFirstSeg p = pyFirstSeg (stripField p) := by
  rcases stripField_cases p with h | h
  · rw [h]
  · conv_lhs => rw [h]
    have : stripField p ++ ".*" = stripField p ++ "." ++ "*" := by
      apply strDataInj; simp [String.data_append]
    rw [this, pyFirstSeg_append_dot]

/-! ### Membership lemmas for the set-as-list operations -/

theorem mem_addNew {l : List String} {x y : String} :
    y ∈ addNew l x ↔ y ∈ l ∨ y = x := by
  simp only [addNew]
  split
  · next h => constructor
              · exact Or.inl
              · rintro (hy | rfl)
                · exact hy
                · exact h
  · simp

theorem mem_listUnion {a b : List String} {x : String} :
    x ∈ listUnion a b ↔ x ∈ a ∨ x ∈ b := by
  induction b generalizing a with
  | nil => simp [listUnion]
  | cons c cs ih =>
    show x ∈ listUnion (addNew a c) cs ↔ _
    rw [ih, mem_addNew]
    simp only [List.mem_cons]
    tauto

theorem mem_listDiff {a b : List String} {x : String} :
    x ∈ listDiff a b ↔ x ∈ a ∧ x ∉ b := by
  simp [listDiff]

theorem mem_insertSorted {l : List String} {x y : String} :
    y ∈ insertSorted x l ↔ y = x ∨ y ∈ l := by
  induction l with
  | nil => simp [insertSorted]
  | cons c cs ih =>
    simp only [insertSorted]
    split
    · simp
    · simp only [List.mem_cons, ih]
      tauto

theorem mem_sortStrings {l : List String} {x : String} :
    x ∈ sortStrings l ↔ x ∈ l := by
  induction l with
  | nil => simp [sortStrings]
  | cons c cs ih =>
    show x ∈ insertSorted c (sortStrings cs) ↔ _
    rw [mem_insertSorted, ih]
    simp

theorem mem_normalize_of_no_star {cf fields : List String} {x : String}
    (h : "*" ∉ fields) :
    (x ∈ normalizeClsProjection cf fields ↔ x ∈ fields) := by
  simp [normalizeClsProjection, h]

theorem mem_normalize {cf fields : List String} {x : String} :
    x ∈ normalizeClsProjection cf fields ↔
      (if "*" ∈ fields then (x ∈ fields ∧ x ≠ "*") ∨ x ∈ cf
       else x ∈ fields) := by
  simp only [normalizeClsProjection]
  split
  · rw [mem_listUnion]
    simp [List.mem_filter]
  · rfl

theorem mem_collapseStage {dp : List String} {f : String} :
    f ∈ collapseStage dp ↔
      f ∈ dp ∧ ∀ g ∈ dp, g ≠ f → pyStartsWith f (g ++ ".") = false := by
  simp only [collapseStage, List.mem_filter, Bool.not_eq_true',
    List.any_eq_false, Bool.and_eq_true, decide_eq_false_iff_not, not_and,
    Bool.not_eq_true]

theorem invalidFieldsOf_nil_iff {cls : DocCls} {dp : List String} :
    invalidFieldsOf cls dp = [] ↔ ∀ f ∈ dp, pyFirstSeg f ∈ cls.fields := by
  simp [invalidFieldsOf, List.filter_eq_nil]

theorem subset_refAddStage {dp keys : List String} :
    ∀ x ∈ dp, x ∈ refAddStage dp keys := by
  intro x hx
  simp only [refAddStage]
  generalize listDiff keys dp = rest
  induction rest generalizing dp with
  | nil => exact hx
  | cons c cs ih =>
    simp only [List.foldl_cons]
    split
    · exact ih hx
    · exact ih (by simp [hx])

theorem mem_refAddStage {dp keys : List String} {x : String}
    (h : x ∈ refAddStage dp keys) :
    x ∈ dp ∨ (x ∈ keys ∧ ∀ f ∈ dp, f ≠ "" → pyStartsWith x f = false) := by
  simp only [refAddStage] at h
  have main : ∀ (rest acc : List String),
      (∀ y ∈ acc, y ∈ dp ∨
        (y ∈ keys ∧ ∀ f ∈ dp, f ≠ "" → pyStartsWith y f = false)) →
      (∀ y ∈ dp, y ∈ acc) →
      (∀ y ∈ rest, y ∈ keys) →
      x ∈ rest.foldl
        (fun acc field =>
          if acc.any (fun f => !decide (f = "") && pyStartsWith field f)
          then acc else acc ++ [field]) acc →
      x ∈ dp ∨ (x ∈ keys ∧ ∀ f ∈ dp, f ≠ "" →
        pyStartsWith x f = false) := by
    intro rest
    induction rest with
    | nil => intro acc hacc _ _ hx; exact hacc x hx
    | cons c cs ih =>
      intro acc hacc hsub hkeys hx
      simp only [List.foldl_cons] at hx
      by_cases hc : acc.any (fun f => !decide (f = "") && pyStartsWith c f)
      · rw [if_pos hc] at hx
        exact ih acc hacc hsub (fun y hy => hkeys y (by simp [hy])) hx
      · rw [if_neg hc] at hx
        refine ih (acc ++ [c]) ?_ (fun y hy => by simp [hsub y hy])
          (fun y hy => hkeys y (by simp [hy])) hx
        intro y hy
        rcases List.mem_append.mp hy with hy | hy
        · exact hacc y hy
        · have hyc : y = c := by simpa using hy
          subst hyc
          refine Or.inr ⟨hkeys y (by simp), ?_⟩
          intro f hf hfne
          have hnot : ∀ x ∈ acc, ¬x = "" → pyStartsWith y x = false := by
            simpa using hc
          exact hnot f (hsub f hf) hfne
  refine main (listDiff keys dp) dp (fun y hy => Or.inl hy) (fun y hy => hy)
    (fun y hy => (mem_listDiff.mp hy).1) h

/-! ### Classification lemmas -/

/-- Reassociation of a dotted decomposition. -/
theorem append_dot_assoc (rf s : String) :
    rf ++ "." ++ s = rf ++ ("." ++ s) := by
  apply strDataInj; simp [String.data_append]

/-- The three conditions of the classification test hold for a genuine
dotted decomposition over `rf`. -/
theorem classify_cond_of_decomp (rf s : String) :
    (pyStartsWith (rf ++ "." ++ s) rf &&
      !decide (rf ++ "." ++ s = rf) &&
      pyStartsWith (pyDrop (rf ++ "." ++ s) rf.length) ".") = true := by
  simp only [Bool.and_eq_true, Bool.not_eq_true', decide_eq_false_iff_not]
  refine ⟨⟨?_, append_dot_ne⟩, ?_⟩
  · rw [append_dot_assoc]
    exact startsWith_refl_append
  · rw [append_dot_assoc, pyDrop_append]
    rw [pyStartsWith_iff]
    exact ⟨s.data, by simp [String.data_append]⟩

/-- Conversely, a field passing the classification test for `rf` decomposes
over `rf`, with the suffix computed by the slice. -/
theorem classify_decomp_of_cond {field rf : String}
    (hpre : pyStartsWith field rf = true)
    (hdot : pyStartsWith (pyDrop field rf.length) "." = true) :
    field = rf ++ "." ++ pyDrop field (rf.length + 1) := by
  rw [pyStartsWith_iff] at hpre
  obtain ⟨t, ht⟩ := hpre
  have htdrop : pyDrop field rf.length = String.mk t := by
    apply strDataInj
    simp only [pyDrop]
    rw [← ht]
    exact List.drop_left rf.data t
  rw [htdrop, pyStartsWith_iff] at hdot
  obtain ⟨t', ht'⟩ := hdot
  simp only at ht'
  have hfield : field = rf ++ "." ++ String.mk t' := by
    apply strDataInj
    rw [← ht, ← ht']
    simp [String.data_append]
  rw [hfield, pyDrop_append_dot]

theorem classifyField_some {refs : List (String × RefCls)} {field rf : String}
    {rc : RefCls} {s : String}
    (h : classifyField refs field = some (rf, rc, s)) :
    (rf, rc) ∈ refs ∧ field = rf ++ "." ++ s := by
  induction refs with
  | nil => simp [classifyField] at h
  | cons p rest ih =>
    obtain ⟨rf₀, rc₀⟩ := p
    simp only [classifyField] at h
    split at h
    · next hcond =>
      simp only [Bool.and_eq_true, Bool.not_eq_true', decide_eq_false_iff_not]
        at hcond
      obtain ⟨⟨hpre, _⟩, hdot⟩ := hcond
      cases h
      exact ⟨List.mem_cons_self _ _, classify_decomp_of_cond hpre hdot⟩
    · obtain ⟨hm, he⟩ := ih h
      exact ⟨List.mem_cons_of_mem _ hm, he⟩

theorem classifyField_none {refs : List (String × RefCls)} {field : String}
    (h : classifyField refs field = none) :
    ∀ rf rc s, (rf, rc) ∈ refs → field ≠ rf ++ "." ++ s := by
  induction refs with
  | nil => intro rf rc s hmem; simp at hmem
  | cons p rest ih =>
    obtain ⟨rf₀, rc₀⟩ := p
    simp only [classifyField] at h
    split at h
    · cases h
    · next hcond =>
      intro rf rc s hmem hfield
      rcases List.mem_cons.mp hmem with hp | hp
      · have hrf : rf₀ = rf := ((Prod.mk.injEq _ _ _ _).mp hp).1.symm
        apply hcond
        rw [hrf, hfield]
        exact classify_cond_of_decomp rf s
      · exact ih h rf rc s hp hfield

/-- Under a well-formed schema (no reference field is a strict dotted
descendant of another, and reference field names are unique), a path that
decomposes over a declared reference field is classified to exactly that
field and suffix. -/
theorem classifyField_of_decomp {refs : List (String × RefCls)} {rf : String}
    {rc : RefCls} {s : String}
    (hnodup : (refs.map Prod.fst).Nodup)
    (hnonested : ∀ p₁ ∈ refs, ∀ p₂ ∈ refs,
      pyStartsWith p₂.1 (p₁.1 ++ ".") = false)
    (hmem : (rf, rc) ∈ refs) :
    classifyField refs (rf ++ "." ++ s) = some (rf, rc, s) := by
  induction refs with
  | nil => simp at hmem
  | cons p rest ih =>
    obtain ⟨rf₀, rc₀⟩ := p
    simp only [classifyField]
    by_cases hrf : rf₀ = rf
    · subst hrf
      have hrc : rc₀ = rc := by
        rcases List.mem_cons.mp hmem with hp | hp
        · exact ((Prod.mk.injEq _ _ _ _).mp hp).2.symm
        · exact absurd (by simpa using List.mem_map_of_mem Prod.fst hp)
            (List.nodup_cons.mp hnodup).1
      subst hrc
      rw [if_pos (classify_cond_of_decomp rf₀ s)]
      rw [pyDrop_append_dot]
    · rw [if_neg]
      · have hmem' : (rf, rc) ∈ rest := by
          rcases List.mem_cons.mp hmem with hp | hp
          · exact absurd ((Prod.mk.injEq _ _ _ _).mp hp).1.symm hrf
          · exact hp
        exact ih (List.nodup_cons.mp hnodup).2
          (fun p₁ h₁ p₂ h₂ =>
            hnonested p₁ (List.mem_cons_of_mem _ h₁) p₂
              (List.mem_cons_of_mem _ h₂))
          hmem'
      · intro hcond
        simp only [Bool.and_eq_true, Bool.not_eq_true', decide_eq_false_iff_not]
          at hcond
        obtain ⟨⟨hpre, _⟩, hdot⟩ := hcond
        have hdec := classify_decomp_of_cond hpre hdot
        have hrfne : rf ≠ rf₀ := fun h => hrf h.symm
        rcases two_decomp hdec hrfne with hw | hw
        · have := hnonested (rf, rc) hmem (rf₀, rc₀) (List.mem_cons_self _ _)
          simp only at this
          rw [this] at hw
          cases hw
        · have := hnonested (rf₀, rc₀) (List.mem_cons_self _ _) (rf, rc) hmem
          simp only at this
          rw [this] at hw
          cases hw

/-! ### `collectStage` characterization -/

theorem collectStage_ok_spec {cls : DocCls} {projection dp : List String}
    {ri : List (String × RefCls × String)}
    (h : collectStage cls projection = .ok (dp, ri)) :
    ri = projection.filterMap (classifyField cls.refFields) ∧
    (∀ f, f ∈ dp ↔ ∃ p ∈ projection,
      classifyField cls.refFields p = none ∧ stripField p = f) ∧
    (∀ p ∈ projection, classifyField cls.refFields p = none →
      stripField p ≠ "") := by
  induction projection generalizing dp ri with
  | nil =>
    simp only [collectStage] at h
    cases h
    simp
  | cons field rest ih =>
    simp only [collectStage] at h
    cases hc : classifyField cls.refFields field with
    | some info =>
      rw [hc] at h
      cases hr : collectStage cls rest with
      | error e => rw [hr] at h; cases h
      | ok pr =>
        obtain ⟨dp', ri'⟩ := pr
        rw [hr] at h
        cases h
        obtain ⟨hri, hdp, hne⟩ := ih hr
        refine ⟨by simp [List.filterMap_cons, hc, hri], ?_, ?_⟩
        · intro f
          rw [hdp f]
          constructor
          · rintro ⟨p, hp, hcl, hst⟩
            exact ⟨p, List.mem_cons_of_mem _ hp, hcl, hst⟩
          · rintro ⟨p, hp, hcl, hst⟩
            rcases List.mem_cons.mp hp with rfl | hp
            · rw [hc] at hcl; cases hcl
            · exact ⟨p, hp, hcl, hst⟩
        · intro p hp hcl
          rcases List.mem_cons.mp hp with rfl | hp
          · rw [hc] at hcl; cases hcl
          · exact hne p hp hcl
    | none =>
      rw [hc] at h
      by_cases hs : stripField field = ""
      · rw [if_pos hs] at h; cases h
      · rw [if_neg hs] at h
        cases hr : collectStage cls rest with
        | error e => rw [hr] at h; cases h
        | ok pr =>
          obtain ⟨dp', ri'⟩ := pr
          rw [hr] at h
          cases h
          obtain ⟨hri, hdp, hne⟩ := ih hr
          refine ⟨by simp [List.filterMap_cons, hc, hri], ?_, ?_⟩
          · intro f
            have hmem : f ∈ (if stripField field ∈ dp' then dp'
                else stripField field :: dp') ↔
                f = stripField field ∨ f ∈ dp' := by
              split
              · next hin =>
                constructor
                · exact Or.inr
                · rintro (rfl | hf)
                  · exact hin
                  · exact hf
              · simp [List.mem_cons]
            rw [hmem, hdp f]
            constructor
            · rintro (rfl | ⟨p, hp, hcl, hst⟩)
              · exact ⟨field, List.mem_cons_self _ _, hc, rfl⟩
              · exact ⟨p, List.mem_cons_of_mem _ hp, hcl, hst⟩
            · rintro ⟨p, hp, hcl, hst⟩
              rcases List.mem_cons.mp hp with rfl | hp
              · exact Or.inl hst.symm
              · exact Or.inr ⟨p, hp, hcl, hst⟩
          · intro p hp hcl
            rcases List.mem_cons.mp hp with rfl | hp
            · exact hs
            · exact hne p hp hcl

theorem collectStage_error_spec {cls : DocCls} {projection : List String}
    {e : PlanErr} (h : collectStage cls projection = .error e) :
    ∃ p ∈ projection, classifyField cls.refFields p = none ∧
      stripField p = "" ∧ e = .invalidFields [p] cls.name := by
  induction projection with
  | nil => simp only [collectStage] at h; cases h
  | cons field rest ih =>
    simp only [collectStage] at h
    cases hc : classifyField cls.refFields field with
    | some info =>
      rw [hc] at h
      cases hr : collectStage cls rest with
      | error e' =>
        rw [hr] at h
        cases h
        obtain ⟨p, hp, h1, h2, h3⟩ := ih hr
        exact ⟨p, List.mem_cons_of_mem _ hp, h1, h2, h3⟩
      | ok pr => obtain ⟨dp', ri'⟩ := pr; rw [hr] at h; cases h
    | none =>
      rw [hc] at h
      by_cases hs : stripField field = ""
      · rw [if_pos hs] at h
        cases h
        exact ⟨field, List.mem_cons_self _ _, hc, hs, rfl⟩
      · rw [if_neg hs] at h
        cases hr : collectStage cls rest with
        | error e' =>
          rw [hr] at h
          cases h
          obtain ⟨p, hp, h1, h2, h3⟩ := ih hr
          exact ⟨p, List.mem_cons_of_mem _ hp, h1, h2, h3⟩
        | ok pr => obtain ⟨dp', ri'⟩ := pr; rw [hr] at h; cases h

theorem collectStage_error_of_empty {cls : DocCls} {projection : List String}
    {p : String} (hp : p ∈ projection)
    (hc : classifyField cls.refFields p = none)
    (hs : stripField p = "") :
    ∃ e, collectStage cls projection = .error e := by
  induction projection with
  | nil => simp at hp
  | cons field rest ih =>
    rcases List.mem_cons.mp hp with rfl | hp'
    · refine ⟨.invalidFields [p] cls.name, ?_⟩
      simp only [collectStage, hc, hs]
      rfl
    · obtain ⟨e, he⟩ := ih hp'
      cases hcf : classifyField cls.refFields field with
      | some info =>
        refine ⟨e, ?_⟩
        simp only [collectStage, hcf, he]
      | none =>
        by_cases hsf : stripField field = ""
        · exact ⟨.invalidFields [field] cls.name, by
            simp only [collectStage, hcf, hsf]; rfl⟩
        · refine ⟨e, ?_⟩
          simp only [collectStage, hcf, he]
          rw [if_neg hsf]

/-! ### `parseProjection` inversion -/

theorem mem_foldl_addNew {l : List String} {x : String} :
    x ∈ l.foldl addNew [] ↔ x ∈ l := by
  have : x ∈ listUnion [] l ↔ x ∈ ([] : List String) ∨ x ∈ l := mem_listUnion
  simpa [listUnion] using this

theorem parseProjection_ok_inv {cls : DocCls} {projection : List String}
    {res : ParseResult} (hne : projection ≠ [])
    (h : parseProjection cls projection = .ok res) :
    ∃ dp ri, collectStage cls projection = .ok (dp, ri) ∧
      invalidFieldsOf cls (collapseStage (normalizeClsProjection cls.fields
        (listUnion (listDiff dp ((ri.map (fun x => x.1)).foldl addNew []))
          ["id"]))) = [] ∧
      res = ⟨some (if ri.isEmpty
          then collapseStage (normalizeClsProjection cls.fields
            (listUnion (listDiff dp ((ri.map (fun x => x.1)).foldl addNew []))
              ["id"]))
          else refAddStage (collapseStage (normalizeClsProjection cls.fields
            (listUnion (listDiff dp ((ri.map (fun x => x.1)).foldl addNew []))
              ["id"])))
            ((ri.map (fun x => x.1)).foldl addNew [])),
        buildRefSpecs ri⟩ := by
  simp only [parseProjection] at h
  rw [if_neg (by simpa using hne)] at h
  cases hc : collectStage cls projection with
  | error e => rw [hc] at h; cases h
  | ok pr =>
    obtain ⟨dp, ri⟩ := pr
    rw [hc] at h
    simp only at h
    split at h
    · next hinv =>
      cases h
      exact ⟨dp, ri, rfl, by simpa using hinv, rfl⟩
    · cases h

theorem parseProjection_error_inv {cls : DocCls} {projection : List String}
    {e : PlanErr} (h : parseProjection cls projection = .error e) :
    collectStage cls projection = .error e ∨
    ∃ dp ri, collectStage cls projection = .ok (dp, ri) ∧
      invalidFieldsOf cls (collapseStage (normalizeClsProjection cls.fields
        (listUnion (listDiff dp ((ri.map (fun x => x.1)).foldl addNew []))
          ["id"]))) ≠ [] ∧
      e = .invalidFields (invalidFieldsOf cls
        (collapseStage (normalizeClsProjection cls.fields
          (listUnion (listDiff dp ((ri.map (fun x => x.1)).foldl addNew []))
            ["id"])))) cls.name := by
  simp only [parseProjection] at h
  by_cases hne : projection.isEmpty
  · rw [if_pos hne] at h; cases h
  · rw [if_neg hne] at h
    cases hc : collectStage cls projection with
    | error e' =>
      rw [hc] at h
      cases h
      exact Or.inl rfl
    | ok pr =>
      obtain ⟨dp, ri⟩ := pr
      rw [hc] at h
      simp only at h
      split at h
      · cases h
      · next hinv =>
        cases h
        exact Or.inr ⟨dp, ri, rfl, by simpa using hinv, rfl⟩

/-- Members of the deduplicated reference-key set name declared reference
fields. -/
theorem mem_refKeys {cls : DocCls} {projection dp : List String}
    {ri : List (String × RefCls × String)}
    (h : collectStage cls projection = .ok (dp, ri)) {x : String}
    (hx : x ∈ (ri.map (fun p => p.1)).foldl addNew []) :
    ∃ rc : RefCls, (x, rc) ∈ cls.refFields := by
  rw [mem_foldl_addNew] at hx
  obtain ⟨⟨rf, rc, s⟩, hmem, hfst⟩ := List.mem_map.mp hx
  simp only at hfst
  subst hfst
  have hri := (collectStage_ok_spec h).1
  rw [hri] at hmem
  obtain ⟨p, _, hcl⟩ := List.mem_filterMap.mp hmem
  exact ⟨rc, (classifyField_some hcl).1⟩

/-- A bare `"*"` is never classified as a reference descendant. -/
theorem classifyField_star (refs : List (String × RefCls)) :
    classifyField refs "*" = none := by
  induction refs with
  | nil => rfl
  | cons p rest ih =>
    obtain ⟨rf, rc⟩ := p
    simp only [classifyField]
    rw [if_neg, ih]
    intro hcond
    simp only [Bool.and_eq_true, Bool.not_eq_true', decide_eq_false_iff_not]
      at hcond
    obtain ⟨⟨hpre, hne⟩, hdot⟩ := hcond
    rw [pyStartsWith_iff] at hpre
    have : rf.data <+: ['*'] := hpre
    have hcases : rf.data = [] ∨ rf.data = ['*'] := by
      rcases this with ⟨t, ht⟩
      cases hd : rf.data with
      | nil => exact Or.inl rfl
      | cons c cs =>
        rw [hd] at ht
        cases cs with
        | nil =>
          cases t with
          | nil => right; simpa using ht
          | cons t0 ts => simp at ht
        | cons c2 cs2 => simp at ht
    rcases hcases with hd | hd
    · have hrf : rf = "" := strDataInj hd
      subst hrf
      simp only [pyDrop] at hdot
      rw [pyStartsWith_iff] at hdot
      simp at hdot
    · have hrf : rf = "*" := strDataInj hd
      exact hne hrf.symm

/-!
### Claim C10 (corrected): the local projection always contains `id` — except
that an empty requested projection leaves it unset (`None`)
-/

/-- Counterexample to C10 as stated: for the empty requested projection,
`_parse_projection` returns early and `_doc_projection` stays `None`; there
is no local projection containing `"id"`. -/
theorem parseProjection_empty_projection_none :
    parseProjection taskCls [] = .ok ⟨none, []⟩ ∧
    (ParseResult.mk none []).docProjection = none :=
  ⟨by decide, rfl⟩

/-- C10 (amended): for every nonempty requested projection accepted by the
planner, the computed local projection contains `"id"`; and a `"*"` entry is
expanded to all declared field names (which all survive planning when the
declared names are dot-free).  (`hstar` rules out the degenerate schema with
a reference field literally named `"*"`.) -/
theorem parseProjection_id_always_included
    (cls : DocCls) (projection : List String) (res : ParseResult)
    (hne : projection ≠ [])
    (hstar : ∀ rc : RefCls, ("*", rc) ∉ cls.refFields)
    (hok : parseProjection cls projection = .ok res) :
    ∃ dp, res.docProjection = some dp ∧ "id" ∈ dp ∧
      ("*" ∈ projection → (∀ n ∈ cls.fields, '.' ∉ n.data) →
        ∀ n ∈ cls.fields, n ∈ dp) := by
  obtain ⟨dp0, ri, hc, hinv, hres⟩ := parseProjection_ok_inv hne hok
  subst hres
  set refKeys := (ri.map (fun x : String × RefCls × String => x.1)).foldl
    addNew [] with hrefKeys
  set base := listUnion (listDiff dp0 refKeys) ["id"] with hbase
  set dp2 := normalizeClsProjection cls.fields base with hdp2
  set dp3 := collapseStage dp2 with hdp3
  have hid_base : "id" ∈ base := by
    rw [hbase]
    exact mem_listUnion.mpr (Or.inr (by simp))
  have hid_dp2 : "id" ∈ dp2 := by
    rw [hdp2, mem_normalize]
    split
    · exact Or.inl ⟨hid_base, by decide⟩
    · exact hid_base
  have hid_dp3 : "id" ∈ dp3 := by
    rw [hdp3, mem_collapseStage]
    refine ⟨hid_dp2, fun g hg hgne => ?_⟩
    exact no_descend_of_dot_not_mem (by decide)
  refine ⟨_, rfl, ?_, ?_⟩
  · split
    · exact hid_dp3
    · exact subset_refAddStage _ hid_dp3
  · intro hstarmem hdotfree n hn
    have hstar_dp : "*" ∈ dp0 := by
      rw [(collectStage_ok_spec hc).2.1]
      exact ⟨"*", hstarmem, classifyField_star _, by decide⟩
    have hstar_keys : "*" ∉ refKeys := by
      intro hk
      obtain ⟨rc, hrc⟩ := mem_refKeys hc hk
      exact hstar rc hrc
    have hstar_base : "*" ∈ base := by
      rw [hbase]
      exact mem_listUnion.mpr (Or.inl (mem_listDiff.mpr ⟨hstar_dp, hstar_keys⟩))
    have hn_dp2 : n ∈ dp2 := by
      rw [hdp2, mem_normalize, if_pos hstar_base]
      exact Or.inr hn
    have hn_dp3 : n ∈ dp3 := by
      rw [hdp3, mem_collapseStage]
      exact ⟨hn_dp2, fun g hg hgne =>
        no_descend_of_dot_not_mem (hdotfree n hn)⟩
    split
    · exact hn_dp3
    · exact subset_refAddStage _ hn_dp3

/-- Witness for C10's amended theorem: projecting `["*"]` on `Task`. -/
theorem parseProjection_id_always_included_witness :
    ∃ dp, (ParseResult.mk (some ["id", "name", "project"]) []).docProjection
        = some dp ∧ "id" ∈ dp ∧
      ("*" ∈ ["*"] → (∀ n ∈ taskCls.fields, '.' ∉ n.data) →
        ∀ n ∈ taskCls.fields, n ∈ dp) :=
  parseProjection_id_always_included taskCls ["*"]
    ⟨some ["id", "name", "project"], []⟩ (by decide)
    (fun rc h => by simp [taskCls] at h) (by decide)

/-!
### Claim C3 (corrected): the planned local projection never contains both a
field and a strict dotted descendant of it — but the collapsed example also
contains the always-added `id`
-/

/-- Counterexample to C3's example: planning `{"a", "a.b"}` yields the local
projection `{"a", "id"}`, not `{"a"}` only, because `id` is always unioned
in before the collapse. -/
theorem parseProjection_collapse_example :
    parseProjection plainCls ["a", "a.b"] = .ok ⟨some ["a", "id"], []⟩ ∧
    (["a", "id"] : List String) ≠ ["a"] ∧ "id" ∈ (["a", "id"] : List String) :=
  ⟨by decide, by decide, by decide⟩

/-- C3 (amended): under a well-formed schema (dot-free declared field names,
no empty declared field name, no reference field nested under another), the
planned local projection contains no strict dotted-prefix-descendant of
another of its members; and the collapse step keeps exactly the fields that
are not strict dotted descendants of another member of its input. -/
theorem parseProjection_prefix_collapse
    (cls : DocCls) (projection : List String) (res : ParseResult)
    (dp : List String)
    (hdotfree : ∀ n ∈ cls.fields, '.' ∉ n.data)
    (hempty : "" ∉ cls.fields)
    (hnonested : ∀ p₁ ∈ cls.refFields, ∀ p₂ ∈ cls.refFields,
      pyStartsWith p₂.1 (p₁.1 ++ ".") = false)
    (hok : parseProjection cls projection = .ok res)
    (hdp : res.docProjection = some dp)
    (hne : projection ≠ []) :
    (∀ f g, f ∈ dp → g ∈ dp → f ≠ g → pyStartsWith f (g ++ ".") = false) ∧
    (∀ (l : List String) (f : String), f ∈ collapseStage l ↔
      f ∈ l ∧ ∀ g ∈ l, g ≠ f → pyStartsWith f (g ++ ".") = false) := by
  refine ⟨?_, fun l f => mem_collapseStage⟩
  obtain ⟨dp0, ri, hc, hinv, hres⟩ := parseProjection_ok_inv hne hok
  subst hres
  simp only at hdp
  set refKeys := (ri.map (fun x : String × RefCls × String => x.1)).foldl
    addNew [] with hrefKeys
  set base := listUnion (listDiff dp0 refKeys) ["id"] with hbase
  set dp2 := normalizeClsProjection cls.fields base with hdp2
  set dp3 := collapseStage dp2 with hdp3
  -- no member of dp3 is empty (its first segment is declared, and "" is not)
  have hdp3_ne : ∀ g ∈ dp3, g ≠ "" := by
    intro g hg hgeq
    subst hgeq
    have := invalidFieldsOf_nil_iff.mp hinv "" hg
    have hfs : pyFirstSeg "" = "" := by decide
    rw [hfs] at this
    exact hempty this
  -- a field of dp2 originating from the local set cannot descend a ref key
  have hlocal_no_ref : ∀ f ∈ dp2, ∀ rfk ∈ refKeys,
      pyStartsWith f (rfk ++ ".") = false := by
    intro f hf rfk hrfk
    rw [hdp2, mem_normalize] at hf
    have hcase : (f ∈ base ∧ f ≠ "*") ∨ f ∈ cls.fields ∨ f ∈ base := by
      revert hf; split
      · rintro (h | h)
        · exact Or.inl h
        · exact Or.inr (Or.inl h)
      · exact fun h => Or.inr (Or.inr h)
    have hfield : f ∈ cls.fields → pyStartsWith f (rfk ++ ".") = false :=
      fun hm => no_descend_of_dot_not_mem (hdotfree f hm)
    have hbase_case : f ∈ base → pyStartsWith f (rfk ++ ".") = false := by
      intro hm
      rw [hbase] at hm
      rcases mem_listUnion.mp hm with hm | hm
      · -- a stripped local field
        obtain ⟨hm, _⟩ := mem_listDiff.mp hm
        obtain ⟨p, hp, hcl, hst⟩ := ((collectStage_ok_spec hc).2.1 f).mp hm
        rw [Bool.eq_false_iff]
        intro hw
        obtain ⟨s, hs⟩ := startsWith_append_dot.mp hw
        obtain ⟨rc, hrc⟩ := mem_refKeys hc hrfk
        rcases stripField_cases p with hpc | hpc
        · exact classifyField_none hcl rfk rc s hrc
            (hpc.symm.trans (hst.trans hs))
        · have hps : p = rfk ++ "." ++ (s ++ ".*") := by
            rw [hpc, hst, hs]
            apply strDataInj
            simp [String.data_append]
          exact classifyField_none hcl rfk rc (s ++ ".*") hrc hps
      · -- f = "id"
        have : f = "id" := by simpa using hm
        subst this
        exact no_descend_of_dot_not_mem (by decide)
    rcases hcase with ⟨hm, _⟩ | hm | hm
    · exact hbase_case hm
    · exact hfield hm
    · exact hbase_case hm
  intro f g hf hg hfg
  -- split on whether f and g come from dp3 or were appended by refAddStage
  have hdpeq : dp = if ri.isEmpty then dp3 else refAddStage dp3 refKeys :=
    (Option.some.inj hdp).symm
  rw [hdpeq] at hf hg
  have hmem_cases : ∀ x, x ∈ (if ri.isEmpty then dp3
      else refAddStage dp3 refKeys) →
      x ∈ dp3 ∨ (x ∈ refKeys ∧ ∀ h ∈ dp3, h ≠ "" →
        pyStartsWith x h = false) := by
    intro x hx
    revert hx; split
    · exact fun hx => Or.inl hx
    · exact fun hx => mem_refAddStage hx
  rcases hmem_cases f hf with hf3 | ⟨hfk, hfcond⟩
  · rcases hmem_cases g hg with hg3 | ⟨hgk, hgcond⟩
    · -- both survived the collapse
      obtain ⟨hf2, hprop⟩ := mem_collapseStage.mp hf3
      have hg2 : g ∈ dp2 := (mem_collapseStage.mp hg3).1
      exact hprop g hg2 (fun he => hfg he.symm)
    · -- f from the collapse, g an appended reference key
      exact hlocal_no_ref f (mem_collapseStage.mp hf3).1 g hgk
  · rcases hmem_cases g hg with hg3 | ⟨hgk, hgcond⟩
    · -- f appended, g from the collapse: f does not even start with g
      rw [Bool.eq_false_iff]
      intro hw
      have := hfcond g hg3 (hdp3_ne g hg3)
      rw [startsWith_weaken hw] at this
      cases this
    · -- both appended reference keys: excluded by the non-nesting hypothesis
      obtain ⟨rcf, hrcf⟩ := mem_refKeys hc hfk
      obtain ⟨rcg, hrcg⟩ := mem_refKeys hc hgk
      exact hnonested (g, rcg) hrcg (f, rcf) hrcf

/-- Witness for C3's amended theorem at the planning of `{"a", "a.b"}`. -/
theorem parseProjection_prefix_collapse_witness :
    (∀ f g, f ∈ (["a", "id"] : List String) → g ∈ (["a", "id"] : List String)
      → f ≠ g → pyStartsWith f (g ++ ".") = false) ∧
    (∀ (l : List String) (f : String), f ∈ collapseStage l ↔
      f ∈ l ∧ ∀ g ∈ l, g ≠ f → pyStartsWith f (g ++ ".") = false) :=
  parseProjection_prefix_collapse plainCls ["a", "a.b"]
    ⟨some ["a", "id"], []⟩ ["a", "id"]
    (by decide) (by decide) (fun p₁ h₁ => by simp [plainCls] at h₁)
    (by decide) rfl (by decide)

/-!
### Claim C2 (corrected): reference grouping and the sub-query projection
-/

theorem nodup_addNew {l : List String} {x : String} (h : l.Nodup) :
    (addNew l x).Nodup := by
  simp only [addNew]
  split
  · exact h
  · next hx => simpa [List.nodup_append] using ⟨h, fun hm => hx hm⟩

theorem nodup_foldl_addNew (l : List String) :
    (l.foldl addNew []).Nodup := by
  have main : ∀ (l acc : List String), acc.Nodup → (l.foldl addNew acc).Nodup := by
    intro l
    induction l with
    | nil => exact fun acc h => h
    | cons c cs ih => exact fun acc h => ih _ (nodup_addNew h)
  exact main l [] List.nodup_nil

theorem nodup_insertSorted {l : List String} {x : String} (h : l.Nodup)
    (hx : x ∉ l) : (insertSorted x l).Nodup := by
  induction l with
  | nil => simp [insertSorted]
  | cons c cs ih =>
    simp only [insertSorted]
    split
    · exact List.nodup_cons.mpr ⟨hx, h⟩
    · obtain ⟨hc, hcs⟩ := List.nodup_cons.mp h
      refine List.nodup_cons.mpr ⟨?_, ih hcs (fun hm => hx (by simp [hm]))⟩
      rw [mem_insertSorted]
      rintro (rfl | hm)
      · exact hx (by simp)
      · exact hc hm

theorem nodup_sortStrings {l : List String} (h : l.Nodup) :
    (sortStrings l).Nodup := by
  induction l with
  | nil => simp [sortStrings]
  | cons c cs ih =>
    obtain ⟨hc, hcs⟩ := List.nodup_cons.mp h
    exact nodup_insertSorted (ih hcs)
      (fun hm => hc (mem_sortStrings.mp hm))

theorem mem_refKeysOf {info : List (String × RefCls × String)} {x : String} :
    x ∈ refKeysOf info ↔ x ∈ info.map (fun p => p.1) := by
  rw [refKeysOf, mem_sortStrings, mem_foldl_addNew]

theorem refKeysOf_nodup (info : List (String × RefCls × String)) :
    (refKeysOf info).Nodup :=
  nodup_sortStrings (nodup_foldl_addNew _)

theorem find?_key_some {info : List (String × RefCls × String)} {rf : String}
    (h : rf ∈ info.map (fun p => p.1)) :
    ∃ rc s, info.find? (fun x => decide (x.1 = rf)) = some (rf, rc, s) ∧
      (rf, rc, s) ∈ info := by
  induction info with
  | nil => simp at h
  | cons entry rest ih =>
    obtain ⟨k, rc, s⟩ := entry
    by_cases hk : k = rf
    · subst hk
      exact ⟨rc, s, by simp [List.find?_cons], by simp⟩
    · simp only [List.map_cons, List.mem_cons] at h
      rcases h with h | h
      · exact absurd h.symm hk
      · obtain ⟨rc', s', hfind, hmem⟩ := ih h
        refine ⟨rc', s', ?_, List.mem_cons_of_mem _ hmem⟩
        rw [List.find?_cons]
        simp only [hk, decide_False]
        exact hfind

theorem refFields_rc_unique {refs : List (String × RefCls)}
    (hnodup : (refs.map Prod.fst).Nodup) {rf : String} {rc₁ rc₂ : RefCls}
    (h₁ : (rf, rc₁) ∈ refs) (h₂ : (rf, rc₂) ∈ refs) : rc₁ = rc₂ := by
  induction refs with
  | nil => simp at h₁
  | cons p rest ih =>
    obtain ⟨k, rc⟩ := p
    obtain ⟨hk, hrest⟩ := List.nodup_cons.mp hnodup
    rcases List.mem_cons.mp h₁ with hp₁ | hp₁ <;>
      rcases List.mem_cons.mp h₂ with hp₂ | hp₂
    · have e₁ := (Prod.mk.injEq _ _ _ _).mp hp₁
      have e₂ := (Prod.mk.injEq _ _ _ _).mp hp₂
      rw [e₁.2, e₂.2]
    · exfalso
      have e₁ := (Prod.mk.injEq _ _ _ _).mp hp₁
      apply hk
      have hm : rf ∈ rest.map Prod.fst := by
        simpa using List.mem_map_of_mem Prod.fst hp₂
      rwa [e₁.1] at hm
    · exfalso
      have e₂ := (Prod.mk.injEq _ _ _ _).mp hp₂
      apply hk
      have hm : rf ∈ rest.map Prod.fst := by
        simpa using List.mem_map_of_mem Prod.fst hp₁
      rwa [e₂.1] at hm
    · exact ih hrest hp₁ hp₂

theorem mem_refOnly {info : List (String × RefCls × String)} {rf x : String} :
    x ∈ refOnly info rf ↔ (∃ rc, (rf, rc, x) ∈ info) ∧ x ≠ "" := by
  rw [refOnly, mem_foldl_addNew, List.mem_filterMap]
  constructor
  · rintro ⟨⟨k, rc, s⟩, hmem, hsome⟩
    simp only at hsome
    split at hsome
    · next hcond =>
      simp only [Bool.and_eq_true, decide_eq_true_eq, Bool.not_eq_true',
        decide_eq_false_iff_not] at hcond
      cases hsome
      exact ⟨⟨rc, hcond.1 ▸ hmem⟩, hcond.2⟩
    · cases hsome
  · rintro ⟨⟨rc, hmem⟩, hne⟩
    refine ⟨(rf, rc, x), hmem, ?_⟩
    simp [hne]

theorem mem_subQueryProjection {only passed : List String}
    (h : subQueryProjection only = some passed) {x : String} :
    x ∈ passed ↔ x = "id" ∨ (x ∈ only ∧ x ≠ "") := by
  simp only [subQueryProjection] at h
  split at h
  · cases h
  · cases h
    rw [mem_listUnion]
    simp [List.mem_filter]

/-- Every key of the collected reference info yields exactly one entry of
`buildRefSpecs`, carrying the normalized inner projection. -/
theorem buildRefSpecs_mem {info : List (String × RefCls × String)}
    {rf : String} (h : rf ∈ info.map (fun p => p.1)) :
    ∃ rc s, info.find? (fun x => decide (x.1 = rf)) = some (rf, rc, s) ∧
      (rf, rc, s) ∈ info ∧
      (rf, rc, normalizeClsProjection rc.fields (refOnly info rf)) ∈
        buildRefSpecs info := by
  obtain ⟨rc, s, hfind, hmem⟩ := find?_key_some h
  refine ⟨rc, s, hfind, hmem, ?_⟩
  rw [buildRefSpecs, List.mem_filterMap]
  refine ⟨rf, mem_refKeysOf.mpr h, ?_⟩
  rw [hfind]

theorem buildRefSpecs_count {info : List (String × RefCls × String)}
    {rf : String} (h : rf ∈ info.map (fun p => p.1)) :
    ((buildRefSpecs info).filter (fun sp => decide (sp.1 = rf))).length
      = 1 := by
  have hkeys : (buildRefSpecs info).map (fun sp => sp.1) = refKeysOf info := by
    rw [buildRefSpecs]
    have : ∀ keys : List String, (∀ k ∈ keys, k ∈ info.map (fun p => p.1)) →
        (keys.filterMap (fun rf =>
          match info.find? (fun x => decide (x.1 = rf)) with
          | some (_, rc, _) =>
            some (rf, rc, normalizeClsProjection rc.fields (refOnly info rf))
          | none => none)).map (fun sp => sp.1) = keys := by
      intro keys
      induction keys with
      | nil => intro _; rfl
      | cons k ks ih =>
        intro hall
        obtain ⟨rc, s, hfind, _⟩ := find?_key_some (hall k (by simp))
        simp only [List.filterMap_cons, hfind, List.map_cons]
        rw [ih (fun k' hk' => hall k' (by simp [hk']))]
    exact this _ (fun k hk => mem_refKeysOf.mp hk)
  have hcount : ∀ (l : List String), l.Nodup → rf ∈ l →
      l.countP (fun k => decide (k = rf)) = 1 := by
    intro l
    induction l with
    | nil => intro _ hm; simp at hm
    | cons c cs ih =>
      intro hnodup hmem
      obtain ⟨hc, hcs⟩ := List.nodup_cons.mp hnodup
      rcases List.mem_cons.mp hmem with hrfc | hm
      · have hzero : cs.countP (fun k => decide (k = rf)) = 0 := by
          rw [List.countP_eq_zero]
          intro a ha hdec
          have ha' : a = rf := by simpa using hdec
          subst ha'
          exact hc (hrfc ▸ ha)
        rw [List.countP_cons, hzero]
        simp [← hrfc]
      · have hne : ¬(c = rf) := fun he => hc (he ▸ hm)
        rw [List.countP_cons_of_neg _ _ (by simpa using hne)]
        exact ih hcs hm
  calc ((buildRefSpecs info).filter (fun sp => decide (sp.1 = rf))).length
      = (buildRefSpecs info).countP (fun sp => decide (sp.1 = rf)) :=
        (List.countP_eq_length_filter _ _).symm
    _ = ((buildRefSpecs info).map (fun sp => sp.1)).countP
        (fun k => decide (k = rf)) := by rw [List.countP_map]; rfl
    _ = (refKeysOf info).countP (fun k => decide (k = rf)) := by rw [hkeys]
    _ = 1 := hcount _ (refKeysOf_nodup info) (mem_refKeysOf.mpr h)

/-- Under a well-formed schema, the collected reference info for key `rf`
consists exactly of the dotted decompositions over `rf` among the requested
paths, always carrying the declared target class. -/
theorem ri_entries_iff {cls : DocCls} {projection dp : List String}
    {ri : List (String × RefCls × String)}
    (hc : collectStage cls projection = .ok (dp, ri))
    (hnodup : (cls.refFields.map Prod.fst).Nodup)
    (hnonested : ∀ p₁ ∈ cls.refFields, ∀ p₂ ∈ cls.refFields,
      pyStartsWith p₂.1 (p₁.1 ++ ".") = false)
    {rf : String} {rc : RefCls} (hmem : (rf, rc) ∈ cls.refFields)
    {s : String} :
    ((rf, rc, s) ∈ ri ↔ (rf ++ "." ++ s) ∈ projection) ∧
    (∀ rc', (rf, rc', s) ∈ ri → rc' = rc) := by
  have hri := (collectStage_ok_spec hc).1
  constructor
  · constructor
    · intro hin
      rw [hri] at hin
      obtain ⟨p, hp, hcl⟩ := List.mem_filterMap.mp hin
      rw [← (classifyField_some hcl).2]
      exact hp
    · intro hp
      rw [hri]
      exact List.mem_filterMap.mpr
        ⟨rf ++ "." ++ s, hp, classifyField_of_decomp hnodup hnonested hmem⟩
  · intro rc' hin
    rw [hri] at hin
    obtain ⟨p, _, hcl⟩ := List.mem_filterMap.mp hin
    exact refFields_rc_unique hnodup (classifyField_some hcl).1 hmem

/-- Counterexample to C2 as stated: requesting `{"project.*"}` groups into
one join for `project`, but the projection passed to the sub-query executor
is the expansion `{"id","name","email"}` of the `*` suffix, not the claimed
union of the distinct suffixes with `id` (which would be `{"*","id"}`). -/
theorem parseProjection_wildcard_subquery_expanded :
    parseProjection taskCls ["project.*"] =
      .ok ⟨some ["id", "project"],
        [("project", projectRef, ["id", "name", "email"])]⟩ ∧
    subQueryProjection ["id", "name", "email"] =
      some ["id", "name", "email"] ∧
    "name" ∈ (["id", "name", "email"] : List String) ∧
    "name" ∉ (["*", "id"] : List String) ∧
    "*" ∉ (["id", "name", "email"] : List String) :=
  ⟨by decide, by decide, by decide, by decide, by decide⟩

/-- C2 (amended): under a well-formed schema, all requested paths that are
strict dotted descendants of a declared reference field `rf` are grouped
into exactly one join spec for `rf`, and the projection passed to the
sub-query executor for that spec consists of `id` together with the distinct
non-empty suffixes, a `*` suffix being replaced by all declared field names
of the target type. -/
theorem parseProjection_reference_grouping
    (cls : DocCls) (projection : List String) (res : ParseResult)
    (rf : String) (rc : RefCls)
    (hnodup : (cls.refFields.map Prod.fst).Nodup)
    (hnonested : ∀ p₁ ∈ cls.refFields, ∀ p₂ ∈ cls.refFields,
      pyStartsWith p₂.1 (p₁.1 ++ ".") = false)
    (hmem : (rf, rc) ∈ cls.refFields)
    (hne : projection ≠ [])
    (hok : parseProjection cls projection = .ok res)
    (hdesc : ∃ s : String, s ≠ "" ∧ (rf ++ "." ++ s) ∈ projection)
    (hrcid : "id" ∈ rc.fields)
    (hrcstar : "*" ∉ rc.fields) (hrcempty : "" ∉ rc.fields) :
    ((res.refProjection.filter (fun sp => decide (sp.1 = rf))).length = 1) ∧
    ∃ only passed : List String,
      (rf, rc, only) ∈ res.refProjection ∧
      subQueryProjection only = some passed ∧
      ∀ x : String, x ∈ passed ↔
        (x = "id" ∨
         (x ≠ "" ∧ x ≠ "*" ∧ (rf ++ "." ++ x) ∈ projection) ∨
         ((rf ++ "." ++ "*") ∈ projection ∧ x ∈ rc.fields ∧ x ≠ "")) := by
  obtain ⟨dp0, ri, hc, _, hres⟩ := parseProjection_ok_inv hne hok
  have hrespec : res.refProjection = buildRefSpecs ri := by rw [hres]
  obtain ⟨s₀, hs₀ne, hs₀mem⟩ := hdesc
  have hentry : (rf, rc, s₀) ∈ ri :=
    (ri_entries_iff hc hnodup hnonested hmem).1.mpr hs₀mem
  have hkey : rf ∈ ri.map (fun p => p.1) := by
    simpa using List.mem_map_of_mem (fun p => p.1) hentry
  refine ⟨by rw [hrespec]; exact buildRefSpecs_count hkey, ?_⟩
  obtain ⟨rc₁, s₁, hfind, hmem₁, hspec⟩ := buildRefSpecs_mem hkey
  have hrc₁ : rc₁ = rc :=
    (ri_entries_iff hc hnodup hnonested hmem).2 rc₁ hmem₁
  rw [hrc₁] at hspec hmem₁
  set S := refOnly ri rf with hSdef
  have hS : ∀ x : String, x ∈ S ↔ (rf ++ "." ++ x) ∈ projection ∧ x ≠ "" := by
    intro x
    rw [hSdef, mem_refOnly]
    constructor
    · rintro ⟨⟨rc', hin⟩, hne'⟩
      have hrc' := (ri_entries_iff hc hnodup hnonested hmem).2 rc' hin
      subst hrc'
      exact ⟨(ri_entries_iff hc hnodup hnonested hmem).1.mp hin, hne'⟩
    · rintro ⟨hp, hne'⟩
      exact ⟨⟨rc, (ri_entries_iff hc hnodup hnonested hmem).1.mpr hp⟩, hne'⟩
  set only := normalizeClsProjection rc.fields S with honly
  have honly_mem : ∀ x : String, x ∈ only ↔
      (if "*" ∈ S then (x ∈ S ∧ x ≠ "*") ∨ x ∈ rc.fields else x ∈ S) := by
    intro x
    rw [honly]
    exact mem_normalize
  have honly_ne : ∀ x ∈ only, x ≠ "" := by
    intro x hx hxe
    subst hxe
    rw [honly_mem] at hx
    revert hx
    split
    · rintro (⟨hx, _⟩ | hx)
      · exact ((hS "").mp hx).2 rfl
      · exact hrcempty hx
    · intro hx
      exact ((hS "").mp hx).2 rfl
  have honly_nonempty : ∃ x, x ∈ only := by
    by_cases hstar : "*" ∈ S
    · exact ⟨"id", (honly_mem "id").mpr (by rw [if_pos hstar]; exact Or.inr hrcid)⟩
    · refine ⟨s₀, (honly_mem s₀).mpr ?_⟩
      rw [if_neg hstar]
      exact (hS s₀).mpr ⟨hs₀mem, hs₀ne⟩
  have hdonly : only.filter (fun f => !decide (f = "")) = only := by
    apply List.filter_eq_self.mpr
    intro x hx
    simpa using honly_ne x hx
  have hpassed : subQueryProjection only = some (listUnion ["id"] only) := by
    simp only [subQueryProjection, hdonly]
    rw [if_neg]
    obtain ⟨x, hx⟩ := honly_nonempty
    intro hempty
    rw [List.isEmpty_iff] at hempty
    rw [hempty] at hx
    cases hx
  refine ⟨only, listUnion ["id"] only, by rw [hrespec]; exact hspec, hpassed, ?_⟩
  intro x
  rw [mem_subQueryProjection hpassed]
  have hstar_iff : "*" ∈ S ↔ (rf ++ "." ++ "*") ∈ projection := by
    rw [hS]
    simp
  constructor
  · rintro (rfl | ⟨hx, hxne⟩)
    · exact Or.inl rfl
    · rw [honly_mem] at hx
      revert hx
      split
      · next hstar =>
        rintro (⟨hxS, hxstar⟩ | hxf)
        · exact Or.inr (Or.inl ⟨hxne, hxstar, ((hS x).mp hxS).1⟩)
        · exact Or.inr (Or.inr ⟨hstar_iff.mp hstar, hxf, hxne⟩)
      · next hstar =>
        intro hxS
        have hxstar : x ≠ "*" := fun he => hstar (he ▸ hxS)
        exact Or.inr (Or.inl ⟨hxne, hxstar, ((hS x).mp hxS).1⟩)
  · rintro (rfl | ⟨hxne, hxstar, hxp⟩ | ⟨hstarp, hxf, hxne⟩)
    · exact Or.inl rfl
    · refine Or.inr ⟨?_, hxne⟩
      rw [honly_mem]
      split
      · exact Or.inl ⟨(hS x).mpr ⟨hxp, hxne⟩, hxstar⟩
      · exact (hS x).mpr ⟨hxp, hxne⟩
    · refine Or.inr ⟨?_, hxne⟩
      rw [honly_mem]
      rw [if_pos (hstar_iff.mpr hstarp)]
      exact Or.inr hxf

/-- Witness for C2's amended theorem: `{"name", "project.name"}` on `Task`. -/
theorem parseProjection_reference_grouping_witness :
    (((ParseResult.mk (some ["name", "id", "project"])
        [("project", projectRef, ["name"])]).refProjection.filter
        (fun sp => decide (sp.1 = "project"))).length = 1) ∧
    ∃ only passed : List String,
      ("project", projectRef, only) ∈ (ParseResult.mk
        (some ["name", "id", "project"])
        [("project", projectRef, ["name"])]).refProjection ∧
      subQueryProjection only = some passed ∧
      ∀ x : String, x ∈ passed ↔
        (x = "id" ∨
         (x ≠ "" ∧ x ≠ "*" ∧ ("project" ++ "." ++ x) ∈
           (["name", "project.name"] : List String)) ∨
         (("project" ++ "." ++ "*") ∈ (["name", "project.name"] : List String)
           ∧ x ∈ projectRef.fields ∧ x ≠ "")) :=
  parseProjection_reference_grouping taskCls ["name", "project.name"]
    ⟨some ["name", "id", "project"], [("project", projectRef, ["name"])]⟩
    "project" projectRef (by decide)
    (fun p₁ h₁ p₂ h₂ => by
      simp [taskCls] at h₁ h₂
      rw [h₁, h₂]
      decide)
    (by decide) (by decide) (by decide)
    ⟨"name", by decide, by decide⟩ (by decide) (by decide) (by decide)

/-!
### Claim C4 (corrected): when planning raises `InvalidFields`
-/

theorem startsWith_data_lt {a b : String}
    (h : pyStartsWith a (b ++ ".") = true) :
    b.data.length < a.data.length := by
  rw [pyStartsWith_iff, append_dot_data] at h
  have := h.length_le
  simpa using this

theorem startsWith_dot_trans {a b c : String}
    (hab : pyStartsWith a (b ++ ".") = true)
    (hbc : pyStartsWith b (c ++ ".") = true) :
    pyStartsWith a (c ++ ".") = true := by
  rw [pyStartsWith_iff, append_dot_data] at hab hbc ⊢
  exact (hbc.trans (List.prefix_append b.data ['.'])).trans hab

/-- A path that strips to the empty string is `""` or `".*"`. -/
theorem strip_empty_cases {p : String} (h : stripField p = "") :
    p = "" ∨ p = ".*" := by
  rcases stripField_cases p with hc | hc
  · exact Or.inl (hc ▸ h)
  · right
    rw [hc, h]
    apply strDataInj
    simp [String.data_append]

/-- Neither `""` nor `".*"` is classified as a reference descendant when no
reference field is named `""`. -/
theorem classifyField_strip_empty_none {refs : List (String × RefCls)}
    (hrefne : ∀ p ∈ refs, p.1 ≠ "") {p : String}
    (hp : p = "" ∨ p = ".*") : classifyField refs p = none := by
  induction refs with
  | nil => rfl
  | cons entry rest ih =>
    obtain ⟨rf, rc⟩ := entry
    simp only [classifyField]
    rw [if_neg, ih (fun q hq => hrefne q (List.mem_cons_of_mem _ hq))]
    intro hcond
    simp only [Bool.and_eq_true, Bool.not_eq_true', decide_eq_false_iff_not]
      at hcond
    obtain ⟨⟨hpre, hne⟩, hdot⟩ := hcond
    have hrf : rf ≠ "" := hrefne (rf, rc) (List.mem_cons_self _ _)
    rcases hp with rfl | rfl
    · rw [pyStartsWith_iff] at hpre
      have : rf.data = [] := List.prefix_nil.mp hpre
      exact hrf (strDataInj this)
    · rw [pyStartsWith_iff] at hpre
      have hcases : rf.data = [] ∨ rf.data = ['.'] ∨ rf.data = ['.', '*'] := by
        obtain ⟨t, ht⟩ := hpre
        cases hd : rf.data with
        | nil => exact Or.inl rfl
        | cons c1 tl =>
          rw [hd] at ht
          cases tl with
          | nil =>
            right; left
            simp only [List.cons_append, List.nil_append] at ht
            injection ht with h1 _
            rw [h1]
          | cons c2 rest2 =>
            right; right
            simp only [List.cons_append] at ht
            injection ht with h1 ht2
            injection ht2 with h2 ht3
            have hr : rest2 = [] := by
              cases rest2 with
              | nil => rfl
              | cons _ _ => simp at ht3
            subst hr
            rw [h1, h2]
      rcases hcases with hd | hd | hd
      · exact hrf (strDataInj hd)
      · have : rf = "." := strDataInj hd
        subst this
        revert hdot
        decide
      · have : rf = ".*" := strDataInj hd
        subst this
        exact hne rfl

/-- Forward construction: a non-empty invalid-fields list makes
`_parse_projection` raise. -/
theorem parseProjection_error_of_invalid {cls : DocCls}
    {projection dp : List String} {ri : List (String × RefCls × String)}
    (hne : projection ≠ [])
    (hc : collectStage cls projection = .ok (dp, ri))
    (hinv : invalidFieldsOf cls (collapseStage (normalizeClsProjection
      cls.fields (listUnion (listDiff dp
        ((ri.map (fun x => x.1)).foldl addNew [])) ["id"]))) ≠ []) :
    parseProjection cls projection = .error (.invalidFields
      (invalidFieldsOf cls (collapseStage (normalizeClsProjection cls.fields
        (listUnion (listDiff dp ((ri.map (fun x => x.1)).foldl addNew []))
          ["id"])))) cls.name) := by
  simp only [parseProjection]
  rw [if_neg (by simpa using hne), hc]
  simp only
  rw [if_neg (by simpa using hinv)]

/-- Counterexample to C4 as stated: requesting `["*"]` has first segment
`"*"`, which is not a declared field, yet planning succeeds (the wildcard is
expanded instead). -/
theorem parseProjection_star_no_error :
    parseProjection plainCls ["*"] = .ok ⟨some ["id", "a"], []⟩ ∧
    pyFirstSeg "*" ∉ plainCls.fields :=
  ⟨by decide, by decide⟩

/-- C4 (amended): on a well-formed schema, constructing the helper raises
`InvalidFields` exactly when some requested path becomes empty after
stripping a trailing wildcard, or some requested path that does not reduce
to the bare wildcard `"*"` has a first dotted segment that is not a declared
field; the error is raised by `_parse_projection` itself (at planning time)
and carries a non-empty offending-field list and the document type name. -/
theorem parseProjection_invalid_fields_iff
    (cls : DocCls) (projection : List String)
    (hne : projection ≠ [])
    (hid : "id" ∈ cls.fields)
    (hfieldsfirst : ∀ n ∈ cls.fields, pyFirstSeg n ∈ cls.fields)
    (hreffirst : ∀ p ∈ cls.refFields, pyFirstSeg p.1 ∈ cls.fields)
    (hrefne : ∀ p ∈ cls.refFields, p.1 ≠ "") :
    ((∃ e, parseProjection cls projection = .error e) ↔
      ((∃ p ∈ projection, stripField p = "") ∨
       (∃ p ∈ projection, stripField p ≠ "*" ∧ stripField p ≠ "" ∧
         pyFirstSeg p ∉ cls.fields))) ∧
    (∀ e, parseProjection cls projection = .error e →
      ∃ fs, fs ≠ [] ∧ e = .invalidFields fs cls.name) := by
  constructor
  · constructor
    · -- error implies one of the two conditions
      rintro ⟨e, he⟩
      rcases parseProjection_error_inv he with hcol | ⟨dp, ri, hc, hinv, _⟩
      · obtain ⟨p, hp, _, hstrip, _⟩ := collectStage_error_spec hcol
        exact Or.inl ⟨p, hp, hstrip⟩
      · obtain ⟨f, hf⟩ := List.exists_mem_of_ne_nil _ hinv
        rw [invalidFieldsOf, List.mem_filter] at hf
        obtain ⟨hf3, hfbad⟩ := hf
        have hfbad' : pyFirstSeg f ∉ cls.fields := by simpa using hfbad
        have hf2 := (mem_collapseStage.mp hf3).1
        rw [mem_normalize] at hf2
        have hfstar : f ≠ "*" ∨ f ∈ cls.fields := by
          revert hf2; split
          · rintro (⟨_, hfs⟩ | hfc)
            · exact Or.inl hfs
            · exact Or.inr hfc
          · next hnostar =>
            intro hfb
            exact Or.inl (fun he' => hnostar (he' ▸ hfb))
        have hfbase : f ∈ listUnion (listDiff dp
            ((ri.map (fun x => x.1)).foldl addNew [])) ["id"] ∨
            f ∈ cls.fields := by
          revert hf2; split
          · rintro (⟨hfb, _⟩ | hfc)
            · exact Or.inl hfb
            · exact Or.inr hfc
          · exact fun hfb => Or.inl hfb
        rcases hfbase with hfb | hfc
        · rcases mem_listUnion.mp hfb with hfd | hfid
          · obtain ⟨hfdp, _⟩ := mem_listDiff.mp hfd
            obtain ⟨p, hp, hcl, hstrip⟩ :=
              ((collectStage_ok_spec hc).2.1 f).mp hfdp
            have hfne : f ≠ "" := hstrip ▸
              (collectStage_ok_spec hc).2.2 p hp hcl
            have hfstar' : f ≠ "*" := by
              rcases hfstar with h | h
              · exact h
              · exact absurd (hfieldsfirst f h) hfbad'
            refine Or.inr ⟨p, hp, hstrip ▸ hfstar', hstrip ▸ hfne, ?_⟩
            rw [pyFirstSeg_stripField p, hstrip]
            exact hfbad'
          · have : f = "id" := by simpa using hfid
            exact absurd (this ▸ hid)
              (fun hm => hfbad' (hfieldsfirst f hm))
        · exact absurd (hfieldsfirst f hfc) hfbad'
    · -- either condition forces an error
      rintro (⟨p, hp, hstrip⟩ | ⟨p, hp, hstar, hstripne, hfseg⟩)
      · obtain ⟨e, he⟩ := collectStage_error_of_empty hp
          (classifyField_strip_empty_none hrefne (strip_empty_cases hstrip))
          hstrip
        refine ⟨e, ?_⟩
        simp only [parseProjection]
        rw [if_neg (by simpa using hne), he]
      · -- the stripped field survives to the invalid-fields check
        cases hcol : collectStage cls projection with
        | error e =>
          refine ⟨e, ?_⟩
          simp only [parseProjection]
          rw [if_neg (by simpa using hne), hcol]
        | ok pr =>
          obtain ⟨dp, ri⟩ := pr
          set refKeys := (ri.map (fun x : String × RefCls × String => x.1)
            ).foldl addNew [] with hrefKeys
          set base := listUnion (listDiff dp refKeys) ["id"] with hbase
          set dp2 := normalizeClsProjection cls.fields base with hdp2
          -- p is not reference-classified
          have hcl : classifyField cls.refFields p = none := by
            cases hclc : classifyField cls.refFields p with
            | none => rfl
            | some info =>
              obtain ⟨rf, rc, s⟩ := info
              obtain ⟨hmem, hdec⟩ := classifyField_some hclc
              exfalso
              apply hfseg
              rw [hdec, pyFirstSeg_append_dot]
              exact hreffirst (rf, rc) hmem
          -- the stripped field is in the collected local set
          have hfdp : stripField p ∈ dp :=
            ((collectStage_ok_spec hcol).2.1 _).mpr ⟨p, hp, hcl, rfl⟩
          -- and not a reference key
          have hfkeys : stripField p ∉ refKeys := by
            intro hk
            obtain ⟨rc, hrc⟩ := mem_refKeys hcol hk
            apply hfseg
            rw [pyFirstSeg_stripField p]
            exact hreffirst (stripField p, rc) hrc
          have hfbase : stripField p ∈ base := by
            rw [hbase]
            exact mem_listUnion.mpr
              (Or.inl (mem_listDiff.mpr ⟨hfdp, hfkeys⟩))
          have hfdp2 : stripField p ∈ dp2 := by
            rw [hdp2, mem_normalize]
            split
            · exact Or.inl ⟨hfbase, hstar⟩
            · exact hfbase
          -- take a minimal-length dotted ancestor of (stripField p) in dp2
          set Mlist := dp2.filter (fun q => decide (q = stripField p) ||
            pyStartsWith (stripField p) (q ++ ".")) with hM
          have hpM : stripField p ∈ Mlist := by
            rw [hM, List.mem_filter]
            exact ⟨hfdp2, by simp⟩
          have hMne : Mlist ≠ [] := fun h => by
            rw [h] at hpM; cases hpM
          have hsome : (Mlist.argmin (fun s : String => s.data.length)
              ).isSome := by
            cases harg : Mlist.argmin (fun s : String => s.data.length) with
            | none => exact absurd (List.argmin_eq_none.mp harg) hMne
            | some _ => rfl
          obtain ⟨q, hq⟩ := Option.isSome_iff_exists.mp hsome
          have hqM : q ∈ Mlist := List.argmin_mem (Option.mem_def.mpr hq)
          have hqmin : ∀ r ∈ Mlist, q.data.length ≤ r.data.length := by
            intro r hr
            have hle := @List.le_of_mem_argmin String Nat _
              (fun s : String => s.data.length) Mlist r q hr
              (Option.mem_def.mpr hq)
            simpa using hle
          rw [hM, List.mem_filter] at hqM
          obtain ⟨hqdp2, hqpred⟩ := hqM
          have hqanc : q = stripField p ∨
              pyStartsWith (stripField p) (q ++ ".") = true := by
            simpa using hqpred
          -- q survives the collapse
          have hq3 : q ∈ collapseStage dp2 := by
            rw [mem_collapseStage]
            refine ⟨hqdp2, fun g hg hgq => ?_⟩
            rw [Bool.eq_false_iff]
            intro hqg
            have hgM : g ∈ Mlist := by
              rw [hM, List.mem_filter]
              refine ⟨hg, ?_⟩
              rcases hqanc with rfl | hanc
              · simp [hqg]
              · have := startsWith_dot_trans hanc hqg
                simp [this]
            have hlt := startsWith_data_lt hqg
            have := hqmin g hgM
            omega
          -- q's first segment is undeclared
          have hqbad : pyFirstSeg q ∉ cls.fields := by
            rcases hqanc with rfl | hanc
            · rw [← pyFirstSeg_stripField]
              exact hfseg
            · obtain ⟨t, ht⟩ := startsWith_append_dot.mp hanc
              intro hqin
              apply hfseg
              rw [pyFirstSeg_stripField p, ht, pyFirstSeg_append_dot]
              exact hqin
          have hinvne : invalidFieldsOf cls (collapseStage dp2) ≠ [] := by
            intro hnil
            exact hqbad (invalidFieldsOf_nil_iff.mp hnil q hq3)
          exact ⟨_, parseProjection_error_of_invalid hne hcol
            (by rw [← hdp2, ← hbase, ← hrefKeys] at *; exact hinvne)⟩
  · -- the error payload always carries fields and the type name
    intro e he
    rcases parseProjection_error_inv he with hcol | ⟨dp, ri, _, hinv, hee⟩
    · obtain ⟨p, _, _, _, hee⟩ := collectStage_error_spec hcol
      exact ⟨[p], by simp, hee⟩
    · exact ⟨_, hinv, hee⟩

/-!
## `_ProxyManager` and the id-collection pass of `ProjectionHelper.project`

Proxy identity is modelled by an arena: `_ReferenceProxy` instances live in
`PMState.arena` and every place that holds "the same proxy object" holds the
same arena index (`RVal.proxyRef`).  Result documents are flat maps from
field name to either a raw string id or a substituted proxy reference, with
an `oid` modelling Python `id(obj)` for the per-helper `_cached_results_paths`
cache.  `dpath.path.paths` over such a document enumerates its top-level
keys, and a single-segment reference field name matches exactly the key
equal to it. -/

inductive RVal where
  | str (s : String)
  | proxyRef (n : Nat)
  deriving DecidableEq

structure RDoc where
  oid : Nat
  fields : List (String × RVal)
  deriving DecidableEq

/-- The contents of one `_ReferenceProxy` (a Python dict). -/
abbrev ProxyDict := List (String × String)

/-- The `_ProxyManager` state: the id → proxy map (`_proxies`) with proxies
as arena slots. -/
structure PMState where
  proxies : List (String × Nat)
  arena : List ProxyDict
  deriving DecidableEq

def pmEmpty : PMState := ⟨[], []⟩

/-- `_ReferenceProxy(id)`: `{"id": id}` for a truthy id, else `{}`. -/
def referenceProxy (pid : String) : ProxyDict :=
  if pid = "" then [] else [("id", pid)]

/-- `_ProxyManager.add`: return the existing proxy for the id or register a
fresh one (the lock only guards this read-modify-write; the model is
sequential). -/
def pmAdd (pm : PMState) (pid : String) : Nat × PMState :=
  match pm.proxies.lookup pid with
  | some n => (n, pm)
  | none => (pm.arena.length,
      ⟨pm.proxies ++ [(pid, pm.arena.length)],
       pm.arena ++ [referenceProxy pid]⟩)

/-- Python `d[k] = v` on a string dict. -/
def setEntryS (l : List (String × String)) (k v : String) :
    List (String × String) :=
  match l with
  | [] => [(k, v)]
  | (k', v') :: rest =>
    if k' = k then (k, v) :: rest else (k', v') :: setEntryS rest k v

/-- Python `dict.update`. -/
def dictUpdateS (d upd : List (String × String)) : List (String × String) :=
  upd.foldl (fun acc kv => setEntryS acc kv.1 kv.2) d

/-- `_ProxyManager.update`: merge a fetched result into the proxy registered
for its id, if any. -/
def pmUpdate (pm : PMState) (res : List (String × String)) : PMState :=
  match res.lookup "id" with
  | none => pm
  | some pid =>
    match pm.proxies.lookup pid with
    | none => pm
    | some n =>
      { pm with arena := pm.arena.set n (dictUpdateS (pm.arena.getD n []) res) }

/-- The per-helper state created in `ProjectionHelper.__init__`:
`_proxy_manager` and `_cached_results_paths`. -/
structure HState where
  pm : PMState
  cache : List (Nat × List String)
  deriving DecidableEq

def hsEmpty : HState := ⟨pmEmpty, []⟩

/-- Errors of the model: applying the `add` factory to an already-substituted
proxy dict (an unhashable key in Python), or a stale cached path missing from
the document. -/
inductive MErr where
  | unhashable
  | keyError
  deriving DecidableEq

/-- The `dpath.path.paths` enumeration of a flat result document. -/
def docPaths (d : RDoc) : List String := d.fields.map (fun kv => kv.1)

/-- Python `d[k] = v` on a result document's fields. -/
def setRVal (l : List (String × RVal)) (k : String) (v : RVal) :
    List (String × RVal) :=
  match l with
  | [] => [(k, v)]
  | (k', v') :: rest =>
    if k' = k then (k, v) :: rest else (k', v') :: setRVal rest k v

/-- The `search_and_replace` comprehension of `_search` with
`factory=_proxy_manager.add`: for each matched location, read the old value,
substitute the (shared) proxy obtained from `add`, and collect the old
value. -/
def searchAddLoop (pm : PMState) (doc : RDoc) :
    List String → Except MErr (List String × RDoc × PMState)
  | [] => .ok ([], doc, pm)
  | k :: ks =>
    match doc.fields.lookup k with
    | none => .error .keyError
    | some (.proxyRef _) => .error .unhashable
    | some (.str v) =>
      let n := (pmAdd pm v).1
      let pm' := (pmAdd pm v).2
      match searchAddLoop pm' ⟨doc.oid, setRVal doc.fields k (.proxyRef n)⟩
          ks with
      | .error e => .error e
      | .ok (vs, doc', pm'') => .ok (v :: vs, doc', pm'')

/-- `_search` for one reference field over one result document, consulting
and filling the per-helper path cache keyed by object identity. -/
def searchAdd (hs : HState) (d : RDoc) (f : String) :
    Except MErr (List String × RDoc × HState) :=
  let pc : List String × List (Nat × List String) :=
    match hs.cache.lookup d.oid with
    | some ps => (ps, hs.cache)
    | none => (docPaths d, hs.cache ++ [(d.oid, docPaths d)])
  match searchAddLoop hs.pm d (pc.1.filter (fun k => decide (k = f))) with
  | .error e => .error e
  | .ok (vs, d', pm') => .ok (vs, d', ⟨pm', pc.2⟩)

def collectIdsLoop (hs : HState) (f : String) :
    List RDoc → Except MErr (List String × List RDoc × HState)
  | [] => .ok ([], [], hs)
  | d :: ds =>
    match searchAdd hs d f with
    | .error e => .error e
    | .ok (vs, d', hs') =>
      match collectIdsLoop hs' f ds with
      | .error e => .error e
      | .ok (vss, ds', hs'') => .ok (vs ++ vss, d' :: ds', hs'')

/-- `collect_ids` (projection.py lines 294-306): search every result for the
reference field, substituting proxies, and return the distinct truthy raw
ids. -/
def collectIds (hs : HState) (results : List RDoc) (f : String) :
    Except MErr (List String × List RDoc × HState) :=
  match collectIdsLoop hs f results with
  | .error e => .error e
  | .ok (vs, results', hs') =>
    .ok ((vs.foldl addNew []).filter (fun v => !decide (v = "")),
      results', hs')

/-- One collected join item: reference field, target class, inner projection
and the ids found in this batch. -/
structure JoinItem where
  refField : String
  cls : RefCls
  only : List String
  ids : List String
  deriving DecidableEq

/-- The id-collection pass over all join specs (the `items` comprehension of
`project`, before the `if tup[2]` filter). -/
def collectPhase (hs : HState) (results : List RDoc) :
    List (String × RefCls × List String) →
    Except MErr (List JoinItem × List RDoc × HState)
  | [] => .ok ([], results, hs)
  | sp :: rest =>
    match collectIds hs results sp.1 with
    | .error e => .error e
    | .ok (ids, results', hs') =>
      match collectPhase hs' results' rest with
      | .error e => .error e
      | .ok (items, results'', hs'') =>
        .ok (⟨sp.1, sp.2.1, sp.2.2, ids⟩ :: items, results'', hs'')

/-- `do_projection` (projection.py lines 317-327): run the sub-query with
the computed projection and merge every returned document into its proxy. -/
def doProjection (pm : PMState)
    (projFunc : RefCls → Option (List String) → List String →
      List (List (String × String)))
    (it : JoinItem) : PMState :=
  (projFunc it.cls (subQueryProjection it.only) it.ids).foldl pmUpdate pm

/-- `ProjectionHelper.project` (projection.py lines 279-350) restricted to
the join path (`expand_reference_ids=False`).  The single-spec synchronous
call and the thread-pool `map` are both modelled by the sequential fold —
the items' id sets are disjoint per reference field, and `pool.map` joins
all results before returning.  Note: the helper state (`_proxy_manager` and
`_cached_results_paths`) is threaded through from call to call and never
reset. -/
def projectCall (plan : List (String × RefCls × List String)) (hs : HState)
    (results : List RDoc)
    (projFunc : RefCls → Option (List String) → List String →
      List (List (String × String))) :
    Except MErr (List RDoc × HState) :=
  if plan.isEmpty then .ok (results, hs)
  else
    match collectPhase hs results plan with
    | .error e => .error e
    | .ok (items, results', hs') =>
      let items := items.filter (fun it => !it.ids.isEmpty)
      .ok (results',
        ⟨items.foldl (fun pm it => doProjection pm projFunc it) hs'.pm,
         hs'.cache⟩)

/-- Witness for C4's amended theorem: `["missing.field"]` on `Task` raises
`InvalidFields` with the offending field and the type name. -/
theorem parseProjection_invalid_fields_iff_witness :
    ((∃ e, parseProjection taskCls ["missing.field"] = .error e) ↔
      ((∃ p ∈ (["missing.field"] : List String), stripField p = "") ∨
       (∃ p ∈ (["missing.field"] : List String), stripField p ≠ "*" ∧
         stripField p ≠ "" ∧ pyFirstSeg p ∉ taskCls.fields))) ∧
    (∀ e, parseProjection taskCls ["missing.field"] = .error e →
      ∃ fs, fs ≠ [] ∧ e = .invalidFields fs taskCls.name) :=
  parseProjection_invalid_fields_iff taskCls ["missing.field"]
    (by decide) (by decide) (by decide) (by decide) (by decide)

/-! ### Association-list lookup lemmas -/

theorem lookup_append_some {α β : Type} [BEq α] {l ext : List (α × β)}
    {k : α} {v : β} (h : l.lookup k = some v) :
    (l ++ ext).lookup k = some v := by
  induction l with
  | nil => simp [List.lookup] at h
  | cons p rest ih =>
    obtain ⟨k', v'⟩ := p
    simp only [List.lookup, List.cons_append] at h ⊢
    cases hk : k == k' with
    | true => rw [hk] at h; simpa [hk] using h
    | false => rw [hk] at h; simpa [hk] using ih h

theorem lookup_append_none {α β : Type} [BEq α] {l : List (α × β)} {k : α}
    (h : l.lookup k = none) (ext : List (α × β)) :
    (l ++ ext).lookup k = ext.lookup k := by
  induction l with
  | nil => simp
  | cons p rest ih =>
    obtain ⟨k', v'⟩ := p
    simp only [List.lookup, List.cons_append] at h ⊢
    cases hk : k == k' with
    | true => rw [hk] at h; cases h
    | false => rw [hk] at h; simpa [hk] using ih h

theorem lookup_mem {α β : Type} [BEq α] [LawfulBEq α] {l : List (α × β)}
    {k : α} {v : β} (h : l.lookup k = some v) : (k, v) ∈ l := by
  induction l with
  | nil => simp [List.lookup] at h
  | cons p rest ih =>
    obtain ⟨k', v'⟩ := p
    simp only [List.lookup] at h
    cases hk : k == k' with
    | true =>
      rw [hk] at h
      cases h
      have : k = k' := by simpa using hk
      simp [this]
    | false =>
      rw [hk] at h
      exact List.mem_cons_of_mem _ (ih h)

theorem mem_keys_of_lookup {α β : Type} [BEq α] [LawfulBEq α]
    {l : List (α × β)} {k : α} {v : β} (h : l.lookup k = some v) :
    k ∈ l.map Prod.fst := by
  simpa using List.mem_map_of_mem Prod.fst (lookup_mem h)

theorem lookup_none_of_not_mem {α β : Type} [BEq α] [LawfulBEq α]
    {l : List (α × β)} {k : α} (h : k ∉ l.map Prod.fst) :
    l.lookup k = none := by
  induction l with
  | nil => rfl
  | cons p rest ih =>
    obtain ⟨k', v'⟩ := p
    simp only [List.map_cons, List.mem_cons, not_or] at h
    simp only [List.lookup]
    rw [show (k == k') = false by simpa using h.1]
    exact ih h.2

theorem not_mem_of_lookup_none {α β : Type} [BEq α] [LawfulBEq α]
    {l : List (α × β)} {k : α} (h : l.lookup k = none) :
    k ∉ l.map Prod.fst := by
  induction l with
  | nil => simp
  | cons p rest ih =>
    obtain ⟨k', v'⟩ := p
    simp only [List.lookup] at h
    cases hk : k == k' with
    | true => rw [hk] at h; cases h
    | false =>
      rw [hk] at h
      simp only [List.map_cons, List.mem_cons, not_or]
      exact ⟨by simpa using hk, ih h⟩

/-- In an association list with duplicate-free values, a value determines
its key. -/
theorem snd_nodup_key_eq {l : List (String × Nat)}
    (h : (l.map Prod.snd).Nodup) {v w : String} {n : Nat}
    (hv : (v, n) ∈ l) (hw : (w, n) ∈ l) : v = w := by
  induction l with
  | nil => simp at hv
  | cons p rest ih =>
    obtain ⟨k, m⟩ := p
    obtain ⟨hm, hrest⟩ := List.nodup_cons.mp h
    rcases List.mem_cons.mp hv with he | hv' <;>
      rcases List.mem_cons.mp hw with he' | hw'
    · rw [((Prod.mk.injEq _ _ _ _).mp he).1,
        ((Prod.mk.injEq _ _ _ _).mp he').1]
    · exfalso
      apply hm
      have : n = m := ((Prod.mk.injEq _ _ _ _).mp he).2.symm.symm
      rw [← ((Prod.mk.injEq _ _ _ _).mp he).2]
      simpa using List.mem_map_of_mem Prod.snd hw'
    · exfalso
      apply hm
      rw [← ((Prod.mk.injEq _ _ _ _).mp he').2]
      simpa using List.mem_map_of_mem Prod.snd hv'
    · exact ih hrest hv' hw'

/-! ### `_ProxyManager` lemmas -/

/-- Well-formedness of the proxy registry: every registered slot exists and
slots are pairwise distinct (each id owns its own proxy instance). -/
def PMWF (pm : PMState) : Prop :=
  (∀ p ∈ pm.proxies, p.2 < pm.arena.length) ∧ (pm.proxies.map Prod.snd).Nodup

theorem pmEmpty_wf : PMWF pmEmpty := ⟨fun p hp => by simp [pmEmpty] at hp,
  by simp [pmEmpty]⟩

theorem pmAdd_lookup (pm : PMState) (v : String) :
    (pmAdd pm v).2.proxies.lookup v = some (pmAdd pm v).1 := by
  simp only [pmAdd]
  cases h : pm.proxies.lookup v with
  | some n => simpa using h
  | none =>
    simp only
    rw [lookup_append_none h]
    simp [List.lookup]

theorem pmAdd_proxies_ext (pm : PMState) (v : String) :
    ∃ ext, (pmAdd pm v).2.proxies = pm.proxies ++ ext := by
  simp only [pmAdd]
  cases h : pm.proxies.lookup v with
  | some n => exact ⟨[], by simp⟩
  | none => exact ⟨[(v, pm.arena.length)], rfl⟩

theorem pmAdd_wf {pm : PMState} (h : PMWF pm) (v : String) :
    PMWF (pmAdd pm v).2 := by
  simp only [pmAdd]
  cases hl : pm.proxies.lookup v with
  | some n => exact h
  | none =>
    obtain ⟨hbound, hnodup⟩ := h
    constructor
    · intro p hp
      simp only [List.length_append, List.length_cons]
      rcases List.mem_append.mp hp with hp | hp
      · have := hbound p hp
        omega
      · have : p = (v, pm.arena.length) := by simpa using hp
        rw [this]
        simp
    · simp only [List.map_append]
      rw [List.nodup_append]
      refine ⟨hnodup, by simp, ?_⟩
      intro n hn hn'
      have : n = pm.arena.length := by simpa using hn'
      subst this
      obtain ⟨p, hp, hps⟩ := List.mem_map.mp hn
      have := hbound p hp
      omega

theorem pmUpdate_proxies (pm : PMState) (res : List (String × String)) :
    (pmUpdate pm res).proxies = pm.proxies := by
  simp only [pmUpdate]
  split
  · rfl
  · split
    · rfl
    · rfl

theorem pmUpdate_arena_length (pm : PMState) (res : List (String × String)) :
    (pmUpdate pm res).arena.length = pm.arena.length := by
  simp only [pmUpdate]
  split
  · rfl
  · split
    · rfl
    · simp

/-! ### `setRVal` and key lemmas -/

theorem setRVal_lookup_self (l : List (String × RVal)) (k : String)
    (v : RVal) : (setRVal l k v).lookup k = some v := by
  induction l with
  | nil => simp [setRVal, List.lookup]
  | cons p rest ih =>
    obtain ⟨k', v'⟩ := p
    simp only [setRVal]
    split
    · simp [List.lookup]
    · next hne =>
      simp only [List.lookup]
      rw [show (k == k') = false by simpa using fun he => hne he.symm]
      exact ih

theorem keys_filter_eq {keys : List String} {f : String}
    (hnodup : keys.Nodup) :
    keys.filter (fun k => decide (k = f)) = if f ∈ keys then [f] else [] := by
  induction keys with
  | nil => simp
  | cons c cs ih =>
    obtain ⟨hc, hcs⟩ := List.nodup_cons.mp hnodup
    by_cases hcf : c = f
    · subst hcf
      have hfilter : cs.filter (fun k => decide (k = c)) = [] := by
        rw [List.filter_eq_nil]
        intro a ha hdec
        exact hc ((by simpa using hdec : a = c) ▸ ha)
      rw [List.filter_cons, if_pos (by simp), hfilter,
        if_pos (List.mem_cons_self c cs)]
    · rw [List.filter_cons, if_neg (by simpa using hcf), ih hcs]
      by_cases hf : f ∈ cs
      · rw [if_pos hf, if_pos (List.mem_cons_of_mem _ hf)]
      · rw [if_neg hf, if_neg ?_]
        intro hm
        rcases List.mem_cons.mp hm with he | hm'
        · exact hcf he.symm
        · exact hf hm'

/-- A field present in the document: `_search` with the `add` factory reads
the raw id, substitutes the shared proxy, and caches the paths. -/
theorem searchAdd_found {hs : HState} {d : RDoc} {f : String}
    (hkeys : (docPaths d).Nodup)
    (hcache : hs.cache.lookup d.oid = none)
    {v : String} (hv : d.fields.lookup f = some (.str v)) :
    searchAdd hs d f = .ok ([v],
      ⟨d.oid, setRVal d.fields f (.proxyRef (pmAdd hs.pm v).1)⟩,
      ⟨(pmAdd hs.pm v).2, hs.cache ++ [(d.oid, docPaths d)]⟩) := by
  have hfmem : f ∈ docPaths d := by
    have := mem_keys_of_lookup hv
    simpa [docPaths] using this
  simp only [searchAdd, hcache]
  rw [keys_filter_eq hkeys, if_pos hfmem]
  simp only [searchAddLoop, hv]

/-- A field absent from the document: `_search` finds nothing and only fills
the cache. -/
theorem searchAdd_missing {hs : HState} {d : RDoc} {f : String}
    (hkeys : (docPaths d).Nodup)
    (hcache : hs.cache.lookup d.oid = none)
    (hv : d.fields.lookup f = none) :
    searchAdd hs d f = .ok ([], d,
      ⟨hs.pm, hs.cache ++ [(d.oid, docPaths d)]⟩) := by
  have hfmem : f ∉ docPaths d := by
    have := not_mem_of_lookup_none hv
    simpa [docPaths] using this
  simp only [searchAdd, hcache]
  rw [keys_filter_eq hkeys, if_neg hfmem]
  simp only [searchAddLoop]

/-- A field already holding a proxy dict: using it as a key in
`_proxies.get` is a Python `TypeError` (unhashable). -/
theorem searchAdd_proxyRef {hs : HState} {d : RDoc} {f : String}
    (hkeys : (docPaths d).Nodup)
    (hcache : hs.cache.lookup d.oid = none) {m : Nat}
    (hv : d.fields.lookup f = some (.proxyRef m)) :
    searchAdd hs d f = .error .unhashable := by
  have hfmem : f ∈ docPaths d := by
    have := mem_keys_of_lookup hv
    simpa [docPaths] using this
  simp only [searchAdd, hcache]
  rw [keys_filter_eq hkeys, if_pos hfmem]
  simp only [searchAddLoop, hv]

/-- The invariant of the per-document loop of `collect_ids`: lengths are
preserved, the proxy registry only grows, and every document whose
reference field held a raw id now holds the proxy slot registered for that
id. -/
theorem collectIdsLoop_spec {f : String} {results : List RDoc} {hs : HState}
    {vs : List String} {results' : List RDoc} {hs' : HState}
    (hok : collectIdsLoop hs f results = .ok (vs, results', hs'))
    (hwf : PMWF hs.pm)
    (hkeys : ∀ d ∈ results, (docPaths d).Nodup)
    (hcache : ∀ d ∈ results, hs.cache.lookup d.oid = none)
    (hoids : (results.map RDoc.oid).Nodup) :
    results'.length = results.length ∧ PMWF hs'.pm ∧
    (∃ ext, hs'.pm.proxies = hs.pm.proxies ++ ext) ∧
    (∀ i (hi : i < results.length) (hi' : i < results'.length) (v : String),
      (results.get ⟨i, hi⟩).fields.lookup f = some (.str v) →
      ∃ n, hs'.pm.proxies.lookup v = some n ∧
        (results'.get ⟨i, hi'⟩).fields.lookup f = some (.proxyRef n)) := by
  revert hok hwf hkeys hcache hoids
  revert hs vs results' hs'
  induction results with
  | nil =>
    intro hs vs results' hs' hok hwf hkeys hcache hoids
    simp only [collectIdsLoop] at hok
    have h := Except.ok.inj hok
    have hres : results' = [] := (congrArg (fun t => t.2.1) h).symm
    have hhs : hs' = hs := (congrArg (fun t => t.2.2) h).symm
    subst hres; subst hhs
    refine ⟨rfl, hwf, ⟨[], by simp⟩, ?_⟩
    intro i hi
    exact absurd hi (by simp)
  | cons d ds ih =>
    intro hs vs results' hs' hok hwf hkeys hcache hoids
    have hkd := hkeys d (List.mem_cons_self d ds)
    have hcd := hcache d (List.mem_cons_self d ds)
    simp only [List.map_cons] at hoids
    have hoid_head : d.oid ∉ ds.map RDoc.oid := (List.nodup_cons.mp hoids).1
    have hoids_tail : (ds.map RDoc.oid).Nodup := (List.nodup_cons.mp hoids).2
    have hkeys_tail : ∀ d' ∈ ds, (docPaths d').Nodup :=
      fun d' hd' => hkeys d' (List.mem_cons_of_mem _ hd')
    have hcache_tail : ∀ d' ∈ ds,
        (hs.cache ++ [(d.oid, docPaths d)]).lookup d'.oid = none := by
      intro d' hd'
      rw [lookup_append_none (hcache d' (List.mem_cons_of_mem _ hd'))]
      have hne : ¬d'.oid = d.oid :=
        fun he => hoid_head (he ▸ List.mem_map_of_mem RDoc.oid hd')
      have hbe : (d'.oid == d.oid) = false := by simpa using hne
      simp [List.lookup, hbe]
    cases hd : d.fields.lookup f with
    | none =>
      simp only [collectIdsLoop, searchAdd_missing hkd hcd hd] at hok
      split at hok
      · exact Except.noConfusion hok
      · rename_i vss ds' hs₂ hrec
        have h := Except.ok.inj hok
        have hres : results' = d :: ds' := (congrArg (fun t => t.2.1) h).symm
        have hhs : hs' = hs₂ := (congrArg (fun t => t.2.2) h).symm
        subst hres; subst hhs
        obtain ⟨hlen, hwf₂, ⟨ext₂, hext₂⟩, hidx⟩ :=
          ih hrec hwf hkeys_tail hcache_tail hoids_tail
        refine ⟨by simp [hlen], hwf₂, ⟨ext₂, hext₂⟩, ?_⟩
        intro i hi hi' w hw
        cases i with
        | zero =>
          simp only [List.get] at hw
          rw [hd] at hw
          exact Option.noConfusion hw
        | succ j =>
          exact hidx j (by simpa using hi) (by simpa using hi') w hw
    | some rv =>
      cases rv with
      | proxyRef m =>
        simp only [collectIdsLoop, searchAdd_proxyRef hkd hcd hd] at hok
        exact Except.noConfusion hok
      | str v =>
        simp only [collectIdsLoop, searchAdd_found hkd hcd hd] at hok
        split at hok
        · exact Except.noConfusion hok
        · rename_i vss ds' hs₂ hrec
          have h := Except.ok.inj hok
          have hres : results' =
              (⟨d.oid, setRVal d.fields f (.proxyRef (pmAdd hs.pm v).1)⟩ :
                RDoc) :: ds' := (congrArg (fun t => t.2.1) h).symm
          have hhs : hs' = hs₂ := (congrArg (fun t => t.2.2) h).symm
          subst hres; subst hhs
          obtain ⟨hlen, hwf₂, ⟨ext₂, hext₂⟩, hidx⟩ :=
            ih hrec (pmAdd_wf hwf v) hkeys_tail hcache_tail hoids_tail
          obtain ⟨ext₁, hext₁⟩ := pmAdd_proxies_ext hs.pm v
          refine ⟨by simp [hlen], hwf₂,
            ⟨ext₁ ++ ext₂, by rw [hext₂, hext₁, List.append_assoc]⟩, ?_⟩
          intro i hi hi' w hw
          cases i with
          | zero =>
            simp only [List.get] at hw ⊢
            rw [hd] at hw
            have hwv : v = w := RVal.str.inj (Option.some.inj hw)
            subst hwv
            refine ⟨(pmAdd hs.pm v).1, ?_, setRVal_lookup_self _ _ _⟩
            rw [hext₂]
            exact lookup_append_some (pmAdd_lookup hs.pm v)
          | succ j =>
            exact hidx j (by simpa using hi) (by simpa using hi') w hw

/-- **C1.** Within one batch processed by `collect_ids` (on a well-formed
helper state: duplicate-free per-document keys and object ids, no stale
cache entries for the batch, well-formed proxy registry), any two document
locations that hold the same foreign id for the joined reference field are
replaced by the same proxy instance — the one arena slot `_ProxyManager.add`
registers for that id — and distinct ids are mapped to distinct proxy
instances. -/
theorem collectIds_proxy_identity {hs : HState} {results : List RDoc}
    {f : String} {ids : List String} {results' : List RDoc} {hs' : HState}
    (hok : collectIds hs results f = .ok (ids, results', hs'))
    (hwf : PMWF hs.pm)
    (hkeys : ∀ d ∈ results, (docPaths d).Nodup)
    (hcache : ∀ d ∈ results, hs.cache.lookup d.oid = none)
    (hoids : (results.map RDoc.oid).Nodup) :
    results'.length = results.length ∧
    (∀ i j (hi : i < results.length) (hj : j < results.length)
        (hi' : i < results'.length) (hj' : j < results'.length) (v : String),
      (results.get ⟨i, hi⟩).fields.lookup f = some (.str v) →
      (results.get ⟨j, hj⟩).fields.lookup f = some (.str v) →
      ∃ n, hs'.pm.proxies.lookup v = some n ∧
        (results'.get ⟨i, hi'⟩).fields.lookup f = some (.proxyRef n) ∧
        (results'.get ⟨j, hj'⟩).fields.lookup f = some (.proxyRef n)) ∧
    (∀ v w n m, hs'.pm.proxies.lookup v = some n →
      hs'.pm.proxies.lookup w = some m → v ≠ w → n ≠ m) := by
  have hloop : ∃ vs, collectIdsLoop hs f results = .ok (vs, results', hs') := by
    revert hok
    simp only [collectIds]
    split
    · intro hok; exact Except.noConfusion hok
    · rename_i vs res₂ hs₂ hrec
      intro hok
      have h := Except.ok.inj hok
      have hres : res₂ = results' := congrArg (fun t => t.2.1) h
      have hhs : hs₂ = hs' := congrArg (fun t => t.2.2) h
      exact ⟨vs, by rw [hrec, hres, hhs]⟩
  obtain ⟨vs, hloop⟩ := hloop
  obtain ⟨hlen, hwf', _, hidx⟩ :=
    collectIdsLoop_spec hloop hwf hkeys hcache hoids
  refine ⟨hlen, ?_, ?_⟩
  · intro i j hi hj hi' hj' v hvi hvj
    obtain ⟨n, hn, hfi⟩ := hidx i hi hi' v hvi
    obtain ⟨n', hn', hfj⟩ := hidx j hj hj' v hvj
    have : n = n' := Option.some.inj (hn ▸ hn')
    subst this
    exact ⟨n, hn, hfi, hfj⟩
  · intro v w n m hv hw hvw hnm
    subst hnm
    exact hvw (snd_nodup_key_eq hwf'.2 (lookup_mem hv) (lookup_mem hw))

def c1Docs : List RDoc :=
  [⟨0, [("project", .str "p1"), ("name", .str "A")]⟩,
   ⟨1, [("project", .str "p1")]⟩]

def c1Docs' : List RDoc :=
  [⟨0, [("project", .proxyRef 0), ("name", .str "A")]⟩,
   ⟨1, [("project", .proxyRef 0)]⟩]

def c1HS : HState :=
  ⟨⟨[("p1", 0)], [[("id", "p1")]]⟩, [(0, ["project", "name"]), (1, ["project"])]⟩

/-- Witness for C1: two result documents referencing the foreign id `p1` end
up holding the same proxy slot, registered for `p1`. -/
theorem collectIds_proxy_identity_witness :
    collectIds hsEmpty c1Docs "project" = .ok (["p1"], c1Docs', c1HS) ∧
    (∃ n, c1HS.pm.proxies.lookup "p1" = some n ∧
      (c1Docs'.get ⟨0, by decide⟩).fields.lookup "project" =
        some (.proxyRef n) ∧
      (c1Docs'.get ⟨1, by decide⟩).fields.lookup "project" =
        some (.proxyRef n)) :=
  ⟨by decide,
   (@collectIds_proxy_identity hsEmpty c1Docs "project" ["p1"] c1Docs' c1HS
      (by decide) pmEmpty_wf (by decide) (by decide) (by decide)).2.1
     0 1 (by decide) (by decide) (by decide) (by decide) "p1"
     (by decide) (by decide)⟩

/-! ### State monotonicity of one `project` call -/

theorem searchAddLoop_proxies_ext {ks : List String} :
    ∀ {pm : PMState} {doc : RDoc} {vs : List String} {d' : RDoc}
      {pm' : PMState}, searchAddLoop pm doc ks = .ok (vs, d', pm') →
      ∃ ext, pm'.proxies = pm.proxies ++ ext := by
  induction ks with
  | nil =>
    intro pm doc vs d' pm' hok
    simp only [searchAddLoop] at hok
    have h := Except.ok.inj hok
    have : pm = pm' := congrArg (fun t => t.2.2) h
    exact ⟨[], by rw [← this, List.append_nil]⟩
  | cons k ks ih =>
    intro pm doc vs d' pm' hok
    simp only [searchAddLoop] at hok
    split at hok
    · exact Except.noConfusion hok
    · exact Except.noConfusion hok
    · rename_i v hv
      split at hok
      · exact Except.noConfusion hok
      · rename_i vss d₂ pm₂ hrec
        have h := Except.ok.inj hok
        have hpm : pm₂ = pm' := congrArg (fun t => t.2.2) h
        obtain ⟨ext₂, hext₂⟩ := ih hrec
        obtain ⟨ext₁, hext₁⟩ := pmAdd_proxies_ext pm v
        exact ⟨ext₁ ++ ext₂,
          by rw [← hpm, hext₂, hext₁, List.append_assoc]⟩

theorem searchAdd_state_ext {hs : HState} {d : RDoc} {f : String}
    {vs : List String} {d' : RDoc} {hs' : HState}
    (hok : searchAdd hs d f = .ok (vs, d', hs')) :
    (∃ ext, hs'.pm.proxies = hs.pm.proxies ++ ext) ∧
    (∃ cext, hs'.cache = hs.cache ++ cext) := by
  revert hok
  simp only [searchAdd]
  cases hc : hs.cache.lookup d.oid with
  | some ps =>
    simp only
    split
    · intro hok; exact Except.noConfusion hok
    · rename_i vss d₂ pm₂ hloop
      intro hok
      have h := Except.ok.inj hok
      have hhs : (⟨pm₂, hs.cache⟩ : HState) = hs' :=
        congrArg (fun t => t.2.2) h
      obtain ⟨ext, hext⟩ := searchAddLoop_proxies_ext hloop
      exact ⟨⟨ext, by rw [← hhs]; exact hext⟩,
        ⟨[], by rw [← hhs, List.append_nil]⟩⟩
  | none =>
    simp only
    split
    · intro hok; exact Except.noConfusion hok
    · rename_i vss d₂ pm₂ hloop
      intro hok
      have h := Except.ok.inj hok
      have hhs : (⟨pm₂, hs.cache ++ [(d.oid, docPaths d)]⟩ : HState) = hs' :=
        congrArg (fun t => t.2.2) h
      obtain ⟨ext, hext⟩ := searchAddLoop_proxies_ext hloop
      exact ⟨⟨ext, by rw [← hhs]; exact hext⟩,
        ⟨[(d.oid, docPaths d)], by rw [← hhs]⟩⟩

theorem collectIdsLoop_state_ext {f : String} {results : List RDoc} :
    ∀ {hs : HState} {vs : List String} {results' : List RDoc} {hs' : HState},
      collectIdsLoop hs f results = .ok (vs, results', hs') →
      (∃ ext, hs'.pm.proxies = hs.pm.proxies ++ ext) ∧
      (∃ cext, hs'.cache = hs.cache ++ cext) := by
  induction results with
  | nil =>
    intro hs vs results' hs' hok
    simp only [collectIdsLoop] at hok
    have h := Except.ok.inj hok
    have hhs : hs = hs' := congrArg (fun t => t.2.2) h
    exact ⟨⟨[], by rw [← hhs, List.append_nil]⟩,
      ⟨[], by rw [← hhs, List.append_nil]⟩⟩
  | cons d ds ih =>
    intro hs vs results' hs' hok
    simp only [collectIdsLoop] at hok
    split at hok
    · exact Except.noConfusion hok
    · rename_i vs₁ d₁ hs₁ hsa
      split at hok
      · exact Except.noConfusion hok
      · rename_i vss ds' hs₂ hrec
        have h := Except.ok.inj hok
        have hhs : hs₂ = hs' := congrArg (fun t => t.2.2) h
        obtain ⟨⟨ext₁, hext₁⟩, ⟨cext₁, hcext₁⟩⟩ := searchAdd_state_ext hsa
        obtain ⟨⟨ext₂, hext₂⟩, ⟨cext₂, hcext₂⟩⟩ := ih hrec
        exact ⟨⟨ext₁ ++ ext₂,
            by rw [← hhs, hext₂, hext₁, List.append_assoc]⟩,
          ⟨cext₁ ++ cext₂,
            by rw [← hhs, hcext₂, hcext₁, List.append_assoc]⟩⟩

theorem collectIds_state_ext {hs : HState} {results : List RDoc} {f : String}
    {ids : List String} {results' : List RDoc} {hs' : HState}
    (hok : collectIds hs results f = .ok (ids, results', hs')) :
    (∃ ext, hs'.pm.proxies = hs.pm.proxies ++ ext) ∧
    (∃ cext, hs'.cache = hs.cache ++ cext) := by
  revert hok
  simp only [collectIds]
  split
  · intro hok; exact Except.noConfusion hok
  · rename_i vs res₂ hs₂ hrec
    intro hok
    have h := Except.ok.inj hok
    have hhs : hs₂ = hs' := congrArg (fun t => t.2.2) h
    exact hhs ▸ collectIdsLoop_state_ext hrec

theorem collectPhase_state_ext {plan : List (String × RefCls × List String)} :
    ∀ {hs : HState} {results : List RDoc} {items : List JoinItem}
      {results' : List RDoc} {hs' : HState},
      collectPhase hs results plan = .ok (items, results', hs') →
      (∃ ext, hs'.pm.proxies = hs.pm.proxies ++ ext) ∧
      (∃ cext, hs'.cache = hs.cache ++ cext) := by
  induction plan with
  | nil =>
    intro hs results items results' hs' hok
    simp only [collectPhase] at hok
    have h := Except.ok.inj hok
    have hhs : hs = hs' := congrArg (fun t => t.2.2) h
    exact ⟨⟨[], by rw [← hhs, List.append_nil]⟩,
      ⟨[], by rw [← hhs, List.append_nil]⟩⟩
  | cons sp rest ih =>
    intro hs results items results' hs' hok
    simp only [collectPhase] at hok
    split at hok
    · exact Except.noConfusion hok
    · rename_i ids res₁ hs₁ hci
      split at hok
      · exact Except.noConfusion hok
      · rename_i its res₂ hs₂ hrec
        have h := Except.ok.inj hok
        have hhs : hs₂ = hs' := congrArg (fun t => t.2.2) h
        obtain ⟨⟨ext₁, hext₁⟩, ⟨cext₁, hcext₁⟩⟩ := collectIds_state_ext hci
        obtain ⟨⟨ext₂, hext₂⟩, ⟨cext₂, hcext₂⟩⟩ := ih hrec
        exact ⟨⟨ext₁ ++ ext₂,
            by rw [← hhs, hext₂, hext₁, List.append_assoc]⟩,
          ⟨cext₁ ++ cext₂,
            by rw [← hhs, hcext₂, hcext₁, List.append_assoc]⟩⟩

theorem foldl_pmUpdate_proxies (rs : List (List (String × String))) :
    ∀ pm : PMState, (rs.foldl pmUpdate pm).proxies = pm.proxies := by
  induction rs with
  | nil => intro pm; rfl
  | cons r rs ih =>
    intro pm
    rw [List.foldl_cons, ih, pmUpdate_proxies]

theorem doProjection_proxies (pm : PMState)
    (projFunc : RefCls → Option (List String) → List String →
      List (List (String × String))) (it : JoinItem) :
    (doProjection pm projFunc it).proxies = pm.proxies :=
  foldl_pmUpdate_proxies _ pm

theorem foldl_doProjection_proxies
    (projFunc : RefCls → Option (List String) → List String →
      List (List (String × String))) (its : List JoinItem) :
    ∀ pm : PMState,
      (its.foldl (fun pm it => doProjection pm projFunc it) pm).proxies =
        pm.proxies := by
  induction its with
  | nil => intro pm; rfl
  | cons it its ih =>
    intro pm
    rw [List.foldl_cons, ih, doProjection_proxies]

def c9Plan : List (String × RefCls × List String) :=
  [("project", projectRef, ["name"])]

def c9F1 : RefCls → Option (List String) → List String →
    List (List (String × String)) :=
  fun _ _ _ => [[("id", "p1"), ("name", "ProjA")]]

def c9F2 : RefCls → Option (List String) → List String →
    List (List (String × String)) :=
  fun _ _ _ => []

def c9HS1 : HState :=
  ⟨⟨[("p1", 0)], [[("id", "p1"), ("name", "ProjA")]]⟩, [(0, ["project"])]⟩

def c9HS2 : HState :=
  ⟨⟨[("p1", 0)], [[("id", "p1"), ("name", "ProjA")]]⟩,
   [(0, ["project"]), (1, ["project"])]⟩

/-- **C9 counterexample.** `_proxy_manager` and `_cached_results_paths` are
created in `__init__` and threaded through every `project` call, never
reset: after a first call resolves the proxy for `p1` with `name = ProjA`,
a second call on a fresh document — whose sub-query executor returns no
documents at all — still hands out the very same resolved proxy slot, and
its non-empty registry and cache come from the first call.  Were the
registry fresh per call, slot 0 of the second call would hold only
`{id: p1}`. -/
theorem projectCall_registry_persists :
    projectCall c9Plan hsEmpty
        [⟨0, [("project", .str "p1")]⟩] c9F1 =
      .ok ([⟨0, [("project", .proxyRef 0)]⟩], c9HS1) ∧
    projectCall c9Plan c9HS1
        [⟨1, [("project", .str "p1")]⟩] c9F2 =
      .ok ([⟨1, [("project", .proxyRef 0)]⟩], c9HS2) ∧
    c9HS1.pm.proxies ≠ pmEmpty.proxies ∧
    c9HS1.cache ≠ hsEmpty.cache ∧
    (c9HS2.pm.arena.getD 0 []).lookup "name" = some "ProjA" ∧
    (referenceProxy "p1").lookup "name" = none ∧
    c9F2 projectRef (subQueryProjection ["name"]) ["p1"] = [] := by decide

/-- **C9.** (amended) One `project` call never discards helper state: every
proxy registered and every search-path cache entry present before the call
is still present in the helper state after it, and is therefore observable
by subsequent `project` calls on the same helper; only `__init__` creates a
fresh `_ProxyManager` and an empty `_cached_results_paths`. -/
theorem projectCall_state_persists
    {plan : List (String × RefCls × List String)} {hs : HState}
    {results : List RDoc}
    {projFunc : RefCls → Option (List String) → List String →
      List (List (String × String))}
    {out : List RDoc} {hs' : HState}
    (hok : projectCall plan hs results projFunc = .ok (out, hs')) :
    (∀ pr ∈ hs.pm.proxies, pr ∈ hs'.pm.proxies) ∧
    (∀ c ∈ hs.cache, c ∈ hs'.cache) := by
  revert hok
  simp only [projectCall]
  split
  · intro hok
    have h := Except.ok.inj hok
    have hhs : hs = hs' := congrArg (fun t => t.2) h
    exact ⟨fun pr hpr => hhs ▸ hpr, fun c hc => hhs ▸ hc⟩
  · split
    · intro hok; exact Except.noConfusion hok
    · rename_i items res₂ hs₂ hphase
      intro hok
      have h := Except.ok.inj hok
      have hhs : (⟨(items.filter (fun it => !it.ids.isEmpty)).foldl
            (fun pm it => doProjection pm projFunc it) hs₂.pm,
          hs₂.cache⟩ : HState) = hs' := congrArg (fun t => t.2) h
      obtain ⟨⟨ext, hext⟩, ⟨cext, hcext⟩⟩ := collectPhase_state_ext hphase
      constructor
      · intro pr hpr
        rw [← hhs]
        show pr ∈ ((items.filter (fun it => !it.ids.isEmpty)).foldl
          (fun pm it => doProjection pm projFunc it) hs₂.pm).proxies
        rw [foldl_doProjection_proxies, hext]
        exact List.mem_append_left _ hpr
      · intro c hc
        rw [← hhs]
        show c ∈ hs₂.cache
        rw [hcext]
        exact List.mem_append_left _ hc

/-! ## A heap model of `project_dict`

`project_dict` mutates Python dicts and lists in place and copies
*references*: `dst[last_part] = src[last_part]` stores the source value
object itself, and the sequence branch rebinds `dst[path_part]` to a newly
created list.  To reason about which objects the call creates, shares or
mutates, the values live in a store: a cell is one Python object
(dict / list / scalar), and a `Nat` index is an object reference.
Allocation appends to the store, so a ref `< σ.length` is an object that
existed before a call that starts from `σ`. -/

inductive Cell where
  | cdict (entries : List (String × Nat))
  | clist (elems : List Nat)
  | cprim (n : Nat)
  deriving DecidableEq

abbrev Store := List Cell

/-- Python `d[k] = v` on a ref-valued dict body. -/
def setEntryN (l : List (String × Nat)) (k : String) (v : Nat) :
    List (String × Nat) :=
  match l with
  | [] => [(k, v)]
  | (k', v') :: rest =>
    if k' = k then (k, v) :: rest else (k', v') :: setEntryN rest k v

/-- In-place update of the dict cell at `r` (a no-op on a non-dict cell,
which never happens at the call sites: they check the cell first). -/
def setDictEntry (σ : Store) (r : Nat) (k : String) (v : Nat) : Store :=
  match σ[r]? with
  | some (.cdict d) => σ.set r (.cdict (setEntryN d k v))
  | _ => σ

/-- The list comprehension of the sequence branch, abstracted over the
recursive call: run `copy_path` on each `(s, d)` pair left to right,
threading the store. -/
def mapPairsRefE (f : Nat → Nat → Store → Except PErr Store) :
    List (Nat × Nat) → Store → Except PErr Store
  | [], σ => .ok σ
  | (s, d) :: pairs, σ =>
    match f s d σ with
    | .error e => .error e
    | .ok σ' => mapPairsRefE f pairs σ'

/-- Heap-level translation of `copy_path` (projection.py lines 25-64),
fuel-indexed exactly like `copyPathAux` (fuel = number of parts, preserved
by every recursive call).  One step is one iteration of the loop over
`path_parts[:-1]`; a missing source key is the caught `KeyError`; the
sequence branch first binds a fresh list of fresh empty dicts when the key
is absent from the destination (the `[{} for _ in range(...)]` object),
runs the element-wise recursion, and then rebinds `dst[path_part]` to a
second newly allocated list whose elements are the returned destinations —
the object identities that `id()` would observe in Python. -/
def copyPathRef : Nat → List String → Nat → Nat → Store → Except PErr Store
  | _, [], _, _, σ => .ok σ
  | _, [last], src, dst, σ =>
    match σ[src]? with
    | some (.cdict sd) =>
      match sd.lookup last with
      | none => .ok σ                -- KeyError: projection field not in source
      | some vref =>
        match σ[dst]? with
        | some (.cdict _) => .ok (setDictEntry σ dst last vref)
        | _ => .error .typeError     -- string-keyed store into a non-dict
    | _ => .error .typeError         -- Python: `src[last]` on a non-dict
  | fuel + 1, part :: rest@(_ :: _), src, dst, σ =>
    match σ[src]? with
    | some (.cdict sd) =>
      match sd.lookup part with
      | none => .ok σ                -- KeyError: abandon this path
      | some spref =>
        match σ[spref]? with
        | some (.cdict _) =>
          -- src_part is a dict: descend via `dst.setdefault(path_part, {})`
          match σ[dst]? with
          | some (.cdict dd) =>
            match dd.lookup part with
            | some dref => copyPathRef fuel rest spref dref σ
            | none =>
              copyPathRef fuel rest spref σ.length
                (setDictEntry (σ ++ [Cell.cdict []]) dst part σ.length)
          | _ => .error .typeError
        | some (.clist selems) =>
          -- src_part is a sequence: element-wise recursion, then rebind
          match σ[dst]? with
          | some (.cdict dd) =>
            match dd.lookup part with
            | none =>
              let fresh := (List.range selems.length).map
                (fun i => σ.length + i)
              let σ₂ := setDictEntry
                ((σ ++ List.replicate selems.length (Cell.cdict [])) ++
                  [Cell.clist fresh]) dst part
                (σ.length + selems.length)
              match mapPairsRefE (copyPathRef fuel rest)
                  (selems.zip fresh) σ₂ with
              | .error e => .error e
              | .ok σ₃ =>
                .ok (setDictEntry (σ₃ ++ [Cell.clist fresh]) dst part
                  σ₃.length)
            | some lref =>
              match σ[lref]? with
              | some (.clist delems) =>
                if delems.length = selems.length then
                  match mapPairsRefE (copyPathRef fuel rest)
                      (selems.zip delems) σ with
                  | .error e => .error e
                  | .ok σ₃ =>
                    .ok (setDictEntry (σ₃ ++ [Cell.clist delems]) dst part
                      σ₃.length)
                else .error .valueError
              | _ => .error .typeError
          | _ => .error .typeError
        | _ => .error .typeError     -- "Unsupported projection type"
    | _ => .error .typeError
  | 0, _ :: _ :: _, _, _, σ => .ok σ -- out of fuel: unreachable

/-- Heap-level translation of `project_dict`: allocate the fresh `result`
dict, then fold `copy_path` over the lexicographically sorted paths.
Returns the result ref and the final store. -/
def projectDictRef (σ : Store) (dataRef : Nat) (projection : List String) :
    Except PErr (Nat × Store) :=
  match (sortStrings projection).foldlM
      (fun σ' p =>
        copyPathRef (pySplit p).length (pySplit p) dataRef σ.length σ')
      (σ ++ [Cell.cdict []]) with
  | .error e => .error e
  | .ok σ' => .ok (σ.length, σ')

/-- Elementwise readback, abstracted over the recursive call. -/
def readbackList (f : Nat → Option Val) : List Nat → Option (List Val)
  | [] => some []
  | r :: rs =>
    match f r with
    | none => none
    | some v =>
      match readbackList f rs with
      | none => none
      | some vs => some (v :: vs)

/-- Entry-wise readback, abstracted over the recursive call. -/
def readbackEntries (f : Nat → Option Val) :
    List (String × Nat) → Option (List (String × Val))
  | [] => some []
  | (k, r) :: rs =>
    match f r with
    | none => none
    | some v =>
      match readbackEntries f rs with
      | none => none
      | some vs => some ((k, v) :: vs)

/-- Read the pure value denoted by ref `r` in store `σ`, following
references up to the given depth (`none` on a dangling ref or when out of
fuel). -/
def readback : Nat → Store → Nat → Option Val
  | 0, _, _ => none
  | fuel + 1, σ, r =>
    match σ[r]? with
    | some (.cprim n) => some (.prim n)
    | some (.cdict entries) =>
      match readbackEntries (readback fuel σ) entries with
      | none => none
      | some kvs => some (.dict kvs)
    | some (.clist elems) =>
      match readbackList (readback fuel σ) elems with
      | none => none
      | some vs => some (.list vs)
    | none => none

/-- The heap encoding of `{"a": {"b": [{"c": 1}]}}`: cell 4 is the document,
cell 3 its `a` sub-dict, cell 2 the list, cell 1 the element, cell 0 the
scalar. -/
def c8Store : Store :=
  [ .cprim 1,
    .cdict [("c", 0)],
    .clist [1],
    .cdict [("b", 2)],
    .cdict [("a", 3)] ]

/-- The store after `project_dict({"a": {"b": [{"c": 1}]}}, ["a", "a.b.c"])`:
the source's `a` sub-dict (cell 3) now binds `b` to the freshly created
list cell 6 instead of the original cell 2. -/
def c8Result : Store :=
  [ .cprim 1,
    .cdict [("c", 0)],
    .clist [1],
    .cdict [("b", 6)],
    .cdict [("a", 3)],
    .cdict [("a", 3)],
    .clist [1] ]

/-- The store after the single-path call
`project_dict({"a": {"b": [{"c": 1}]}}, ["a.b.c"])`: cells 0-4 (everything
that existed before the call) are untouched; cells 5-9 are the freshly
built result scaffold. -/
def c8Single : Store :=
  [ .cprim 1,
    .cdict [("c", 0)],
    .clist [1],
    .cdict [("b", 2)],
    .cdict [("a", 3)],
    .cdict [("a", 6)],
    .cdict [("b", 9)],
    .cdict [("c", 0)],
    .clist [7],
    .clist [7] ]

/-- **C8 counterexample.** With the overlapping projection
`["a", "a.b.c"]` on `{"a": {"b": [{"c": 1}]}}`, the path `"a"` copies the
reference of the `a` sub-dict into the result, so the later path
`"a.b.c"` descends through the source itself, and the sequence branch
rebinds the source key `b` (cell 3) to a newly allocated list (cell 6,
which did not exist before the call) — the source is mutated, refuting
"no key ... rebound".  The mutation is identity-level only: reading the
source back as a value gives the original; and the result's `a` key holds
the source's own sub-dict (cell 3), not a copy. -/
theorem projectDictRef_overlap_rebinds_source :
    projectDictRef c8Store 4 ["a", "a.b.c"] = .ok (5, c8Result) ∧
    c8Store[3]? = some (.cdict [("b", 2)]) ∧
    c8Result[3]? = some (.cdict [("b", 6)]) ∧
    c8Store.length ≤ 6 ∧
    readback 10 c8Result 3 = readback 10 c8Store 3 ∧
    readback 10 c8Result 4 = readback 10 c8Store 4 ∧
    c8Result[5]? = some (.cdict [("a", 3)]) := by decide

/-! ### Frame lemmas: a single-path `project_dict` call never touches
pre-existing cells -/

theorem setDictEntry_length (σ : Store) (r : Nat) (k : String) (v : Nat) :
    (setDictEntry σ r k v).length = σ.length := by
  simp only [setDictEntry]
  split
  · exact List.length_set σ r _
  · rfl

theorem setDictEntry_getElem_ne (σ : Store) (r : Nat) (k : String) (v : Nat)
    {x : Nat} (hx : x ≠ r) : (setDictEntry σ r k v)[x]? = σ[x]? := by
  simp only [setDictEntry]
  split
  · exact List.getElem?_set_ne (fun h => hx h.symm)
  · rfl

theorem getElem_lt_of_some {σ : Store} {r : Nat} {c : Cell}
    (h : σ[r]? = some c) : r < σ.length := by
  by_contra hge
  rw [List.getElem?_eq_none (Nat.le_of_not_lt hge)] at h
  exact Option.noConfusion h

/-- Frame property of the element-wise recursion: if each recursive call
only writes to its fresh empty destination (and appended cells), the whole
comprehension only writes to the (pairwise distinct) destinations. -/
theorem mapPairsRefE_fresh_frame
    (f : Nat → Nat → Store → Except PErr Store)
    (hf : ∀ s d σ σ', f s d σ = .ok σ' → σ[d]? = some (.cdict []) →
      σ.length ≤ σ'.length ∧
      ∀ x, x < σ.length → x ≠ d → σ'[x]? = σ[x]?) :
    ∀ (pairs : List (Nat × Nat)) (σ σ' : Store),
      mapPairsRefE f pairs σ = .ok σ' →
      (∀ sd ∈ pairs, σ[sd.2]? = some (.cdict [])) →
      (pairs.map Prod.snd).Nodup →
      σ.length ≤ σ'.length ∧
      ∀ x, x < σ.length → (∀ sd ∈ pairs, x ≠ sd.2) → σ'[x]? = σ[x]? := by
  intro pairs
  induction pairs with
  | nil =>
    intro σ σ' hok _ _
    simp only [mapPairsRefE] at hok
    have h : σ = σ' := Except.ok.inj hok
    subst h
    exact ⟨Nat.le_refl _, fun x _ _ => rfl⟩
  | cons sd pairs ih =>
    obtain ⟨s, d⟩ := sd
    intro σ σ' hok hin hnodup
    simp only [mapPairsRefE] at hok
    split at hok
    · exact Except.noConfusion hok
    · rename_i σ₁ hstep
      have hd : σ[d]? = some (.cdict []) := hin (s, d) (List.mem_cons_self _ _)
      obtain ⟨hlen₁, hfr₁⟩ := hf s d σ σ₁ hstep hd
      simp only [List.map_cons, List.nodup_cons] at hnodup
      have hin₁ : ∀ sd ∈ pairs, σ₁[sd.2]? = some (.cdict []) := by
        intro sd hsd
        have hdm : sd.2 ≠ d :=
          fun he => hnodup.1 (he ▸ List.mem_map_of_mem Prod.snd hsd)
        have horig := hin sd (List.mem_cons_of_mem _ hsd)
        rw [hfr₁ sd.2 (getElem_lt_of_some horig) hdm]
        exact horig
      obtain ⟨hlen₂, hfr₂⟩ := ih σ₁ σ' hok hin₁ hnodup.2
      refine ⟨Nat.le_trans hlen₁ hlen₂, ?_⟩
      intro x hx hxs
      rw [hfr₂ x (Nat.lt_of_lt_of_le hx hlen₁)
        (fun sd hsd => hxs sd (List.mem_cons_of_mem _ hsd))]
      exact hfr₁ x hx (hxs (s, d) (List.mem_cons_self _ _))

/-- The leaf step `dst[last_part] = src[last_part]` writes only to `dst`. -/
theorem copyPathRef_leaf_frame {fuel : Nat} {last : String} {src dst : Nat}
    {σ σ' : Store} (hok : copyPathRef fuel [last] src dst σ = .ok σ') :
    σ.length ≤ σ'.length ∧
    ∀ x, x < σ.length → x ≠ dst → σ'[x]? = σ[x]? := by
  revert hok
  simp only [copyPathRef]
  split
  · rename_i sd hsrc
    split
    · intro hok
      have h : σ = σ' := Except.ok.inj hok
      subst h
      exact ⟨Nat.le_refl _, fun x _ _ => rfl⟩
    · rename_i vref hv
      split
      · intro hok
        have h : setDictEntry σ dst last vref = σ' := Except.ok.inj hok
        subst h
        refine ⟨by rw [setDictEntry_length], ?_⟩
        intro x _ hx
        exact setDictEntry_getElem_ne σ dst last vref hx
      · intro hok; exact Except.noConfusion hok
  · intro hok; exact Except.noConfusion hok

/-- A `copy_path` run whose destination is a freshly created empty dict
writes only to that dict and to cells it allocates itself: every
pre-existing cell other than the destination is untouched. -/
theorem copyPathRef_fresh_frame :
    ∀ (fuel : Nat) (parts : List String) (src dst : Nat) (σ σ' : Store),
      copyPathRef fuel parts src dst σ = .ok σ' →
      σ[dst]? = some (.cdict []) →
      σ.length ≤ σ'.length ∧
      ∀ x, x < σ.length → x ≠ dst → σ'[x]? = σ[x]? := by
  intro fuel
  induction fuel with
  | zero =>
    intro parts src dst σ σ' hok hdst
    match parts with
    | [] =>
      simp only [copyPathRef] at hok
      have h : σ = σ' := Except.ok.inj hok
      subst h
      exact ⟨Nat.le_refl _, fun x _ _ => rfl⟩
    | [last] => exact copyPathRef_leaf_frame hok
    | p :: q :: rest =>
      simp only [copyPathRef] at hok
      have h : σ = σ' := Except.ok.inj hok
      subst h
      exact ⟨Nat.le_refl _, fun x _ _ => rfl⟩
  | succ g ih =>
    intro parts src dst σ σ' hok hdst
    match parts with
    | [] =>
      simp only [copyPathRef] at hok
      have h : σ = σ' := Except.ok.inj hok
      subst h
      exact ⟨Nat.le_refl _, fun x _ _ => rfl⟩
    | [last] => exact copyPathRef_leaf_frame hok
    | part :: q :: rest =>
      have hdlt : dst < σ.length := getElem_lt_of_some hdst
      simp only [copyPathRef] at hok
      split at hok
      · rename_i sd hsrc
        split at hok
        · -- source key missing: KeyError, store unchanged
          have h : σ = σ' := Except.ok.inj hok
          subst h
          exact ⟨Nat.le_refl _, fun x _ _ => rfl⟩
        · rename_i spref hsp
          split at hok
          · -- src_part is a dict: dst is empty, so a fresh dict is bound
            rw [hdst] at hok
            simp only [List.lookup] at hok
            have hfr₂ : (setDictEntry (σ ++ [Cell.cdict []]) dst part
                σ.length)[σ.length]? = some (.cdict []) := by
              rw [setDictEntry_getElem_ne _ _ _ _ (Nat.ne_of_gt hdlt)]
              rw [List.getElem?_append_right (Nat.le_refl _)]
              simp
            obtain ⟨hlen, hfr⟩ := ih (q :: rest) spref σ.length _ σ' hok hfr₂
            rw [setDictEntry_length, List.length_append,
              List.length_cons, List.length_nil] at hlen
            refine ⟨by omega, ?_⟩
            intro x hx hxdst
            rw [hfr x (by rw [setDictEntry_length, List.length_append]; omega)
              (Nat.ne_of_lt hx)]
            rw [setDictEntry_getElem_ne _ _ _ _ hxdst]
            exact List.getElem?_append_left hx
          · -- src_part is a sequence: dst is empty, fresh scaffold + rebind
            rename_i selems hsplist
            rw [hdst] at hok
            simp only [List.lookup] at hok
            split at hok
            · exact Except.noConfusion hok
            · rename_i σ₃ hmap
              have h : setDictEntry (σ₃ ++ [Cell.clist
                  ((List.range selems.length).map (fun i => σ.length + i))])
                  dst part σ₃.length = σ' := Except.ok.inj hok
              have hσ₂len : (setDictEntry
                  ((σ ++ List.replicate selems.length (Cell.cdict [])) ++
                    [Cell.clist ((List.range selems.length).map
                      (fun i => σ.length + i))]) dst part
                  (σ.length + selems.length)).length =
                  σ.length + selems.length + 1 := by
                rw [setDictEntry_length]
                simp only [List.length_append, List.length_replicate,
                  List.length_cons, List.length_nil]
              have hin : ∀ sd ∈ selems.zip ((List.range selems.length).map
                  (fun i => σ.length + i)),
                  (setDictEntry
                    ((σ ++ List.replicate selems.length (Cell.cdict [])) ++
                      [Cell.clist ((List.range selems.length).map
                        (fun i => σ.length + i))]) dst part
                    (σ.length + selems.length))[sd.2]? =
                    some (.cdict []) := by
                intro sd hsd
                obtain ⟨_, hsnd⟩ := List.of_mem_zip hsd
                obtain ⟨i, hi, hival⟩ := List.mem_map.mp hsnd
                rw [List.mem_range] at hi
                rw [← hival]
                rw [setDictEntry_getElem_ne _ _ _ _ (by omega)]
                rw [List.getElem?_append_left (by simp [List.length_append]; omega)]
                rw [List.getElem?_append_right (by omega)]
                simp only [List.getElem?_replicate]
                rw [if_pos (by omega)]
              have hnodup : ((selems.zip ((List.range selems.length).map
                  (fun i => σ.length + i))).map Prod.snd).Nodup := by
                rw [List.map_snd_zip _ _ (by simp)]
                exact (List.nodup_range _).map
                  (fun a b hab => by omega)
              obtain ⟨hlenm, hfrm⟩ := mapPairsRefE_fresh_frame
                (copyPathRef g (q :: rest))
                (fun s d σa σb hab hd => ih (q :: rest) s d σa σb hab hd)
                _ _ _ hmap hin hnodup
              rw [hσ₂len] at hlenm hfrm
              refine ⟨?_, ?_⟩
              · rw [← h, setDictEntry_length, List.length_append]
                simp only [List.length_cons, List.length_nil]
                omega
              · intro x hx hxdst
                rw [← h]
                rw [setDictEntry_getElem_ne _ _ _ _ hxdst]
                rw [List.getElem?_append_left (by omega)]
                rw [hfrm x (by omega) ?_]
                · rw [setDictEntry_getElem_ne _ _ _ _ hxdst]
                  rw [List.getElem?_append_left (by simp [List.length_append]; omega)]
                  exact List.getElem?_append_left hx
                · intro sd hsd
                  obtain ⟨_, hsnd⟩ := List.of_mem_zip hsd
                  obtain ⟨i, _, hival⟩ := List.mem_map.mp hsnd
                  omega
          · exact Except.noConfusion hok
      · exact Except.noConfusion hok

/-- **C8.** (amended, general part) A `project_dict` call for a single
projection path never modifies any pre-existing object: the result dict is
freshly allocated at the old end of the store, the store only grows, and
every cell that existed before the call is bit-for-bit unchanged — no key
of the source or of anything reachable from it is added, removed or
rebound.  (With several paths this fails: see the overlapping-path
counterexample, where a source key is rebound to a fresh value-equal
list.) -/
theorem projectDictRef_single_path_frame {σ : Store} {dataRef : Nat}
    {p : String} {r : Nat} {σ' : Store}
    (hok : projectDictRef σ dataRef [p] = .ok (r, σ')) :
    r = σ.length ∧ σ.length ≤ σ'.length ∧
    ∀ x, x < σ.length → σ'[x]? = σ[x]? := by
  revert hok
  simp only [projectDictRef, sortStrings, insertSorted]
  simp only [List.foldlM_cons, List.foldlM_nil]
  cases hrun : copyPathRef (pySplit p).length (pySplit p) dataRef σ.length
      (σ ++ [Cell.cdict []]) with
  | error e => intro hok; exact Except.noConfusion hok
  | ok σ₁ =>
    intro hok
    simp only [bind, Except.bind, pure, Except.pure] at hok
    have h := Except.ok.inj hok
    have hr : σ.length = r := congrArg Prod.fst h
    have hσ : σ₁ = σ' := congrArg Prod.snd h
    subst hσ
    have hdst : (σ ++ [Cell.cdict []])[σ.length]? = some (.cdict []) := by
      rw [List.getElem?_append_right (Nat.le_refl _)]
      simp
    obtain ⟨hlen, hfr⟩ := copyPathRef_fresh_frame _ _ _ _ _ _ hrun hdst
    rw [List.length_append] at hlen
    simp only [List.length_cons, List.length_nil] at hlen
    refine ⟨hr.symm, by omega, ?_⟩
    intro x hx
    rw [hfr x (by rw [List.length_append]; simp; omega) (Nat.ne_of_lt hx)]
    exact List.getElem?_append_left hx

/-- Witness for C8's amended theorem: the single-path call
`project_dict({"a": {"b": [{"c": 1}]}}, ["a.b.c"])` leaves every
pre-existing cell unchanged. -/
theorem projectDictRef_single_path_frame_witness :
    projectDictRef c8Store 4 ["a.b.c"] = .ok (5, c8Single) ∧
    (5 = c8Store.length ∧ c8Store.length ≤ c8Single.length ∧
      ∀ x, x < c8Store.length → c8Single[x]? = c8Store[x]?) :=
  ⟨by decide,
   @projectDictRef_single_path_frame c8Store 4 "a.b.c" 5 c8Single (by decide)⟩

/-- Witness for C9's amended theorem: the second call of the counterexample
scenario keeps every registry entry and cache entry of the first call. -/
theorem projectCall_state_persists_witness :
    projectCall c9Plan c9HS1 [⟨1, [("project", .str "p1")]⟩] c9F2 =
      .ok ([⟨1, [("project", .proxyRef 0)]⟩], c9HS2) ∧
    (∀ pr ∈ c9HS1.pm.proxies, pr ∈ c9HS2.pm.proxies) ∧
    (∀ c ∈ c9HS1.cache, c ∈ c9HS2.cache) :=
  ⟨by decide,
   @projectCall_state_persists c9Plan c9HS1
     [⟨1, [("project", .str "p1")]⟩] c9F2
     [⟨1, [("project", .proxyRef 0)]⟩] c9HS2 (by decide)⟩

end Projection
